import Mathlib

/-!
# VCF depth filter

A shallow embedding of `vcf_depth_filter_V2.cpp` (class `VCFDepthFilter`) and the
properties of its record tokenizer, depth extractor, depth filter, readers, writers and
driver loop.

Conventions of the embedding.

* A `std::string` is the text it holds, given as the list of its characters (`Str`); the
  bytes of the string are the UTF-8 encoding of that text, and a size in bytes is
  `byteLength`. Where the program only compares bytes with one-byte characters (the
  delimiters of `split`, the suffix `.gz`, signs, digits and spaces in `stoi`), it acts on
  the characters as on the bytes, a byte of a longer character never being equal to one
  of these.
* A `std::vector<std::string>` is a `List Str`.
* An `int` is an `Int`; where the program increments a counter the result is brought back
  into the 32-bit two's-complement range by `wrapInt`.
* A function that can read a vector outside its bounds returns an `Option`; `none` stands for
  that out-of-bounds read (undefined behaviour, in practice the process is killed), so that a
  result `some b` always is a value the C++ function really returns.
-/

namespace VCFDepthFilter

/-- A `std::string`, given by its characters in order. -/
abbrev Str := List Char

/-- The constant `INT_MAX` of `<climits>` for a 32-bit `int`. -/
def INT_MAX : Int := 2147483647

/-- The constant `INT_MIN` of `<climits>` for a 32-bit `int`. -/
def INT_MIN : Int := -2147483648

/-- The data members `minDepth` and `maxDepth` of the class, the only ones the filter reads. -/
structure Config where
  minDepth : Int
  maxDepth : Int
deriving DecidableEq

/-- The constructor `VCFDepthFilter() : minDepth(0), maxDepth(INT_MAX)`. -/
def defaultConfig : Config := ⟨0, INT_MAX⟩

/-! ## `split` -/

/-- The loop `while (std::getline(ss, token, delimiter)) tokens.push_back(token);` of `split`,
run over the characters of the stream that are still unread; `token` is what the `getline`
call in progress has extracted so far.

* At the end of the stream a call that extracted nothing sets `failbit`, which ends the loop
  without a `push_back`; a call that extracted something succeeds, its token is pushed, and
  the next call fails at once.
* A delimiter ends the call in progress: it is extracted and discarded, the token (possibly
  empty) is pushed, and a new call starts.
* Any other character is appended to the token. -/
def splitLoop (delimiter : Char) : Str → Str → List Str
  | [], token => if token = [] then [] else [token]
  | c :: rest, token =>
    if c = delimiter then token :: splitLoop delimiter rest []
    else splitLoop delimiter rest (token ++ [c])

/-- The member function `split(str, delimiter)`. -/
def split (str : Str) (delimiter : Char) : List Str :=
  splitLoop delimiter str []

/-! ## `isMissingGenotype` -/

/-- The member function `isMissingGenotype(genotype)`. -/
def isMissingGenotype (genotype : Str) : Bool :=
  genotype == "./.".toList || genotype == ".|.".toList || genotype.isEmpty

/-! ## `std::stoi` -/

/-- The predicate `isspace` of the "C" locale: space, `\t`, `\n`, `\v`, `\f`, `\r`. -/
def isspace (c : Char) : Bool :=
  c == ' ' || c == '\t' || c == '\n' || c == '\x0b' || c == '\x0c' || c == '\r'

/-- The predicate `isdigit`: the ten characters `0` to `9`. -/
def isdigit (c : Char) : Bool :=
  decide ('0'.toNat ≤ c.toNat) && decide (c.toNat ≤ '9'.toNat)

/-- The value of a run of decimal digits, most significant first. -/
def digitsValue (digits : Str) : Nat :=
  digits.foldl (fun acc c => 10 * acc + (c.toNat - '0'.toNat)) 0

/-- The library call `std::stoi(str)` (base 10, no position output), which goes through `strtol`:
leading white space is skipped, one optional sign is read, then the longest run of digits;
what follows the digits is ignored. `none` stands for the exception the call throws:
`std::invalid_argument` when there is no digit to convert, `std::out_of_range` when the
value does not fit an `int`. -/
def stoi (str : Str) : Option Int :=
  let s := str.dropWhile isspace
  let negative := s.head? = some '-'
  let body := if s.head? = some '-' ∨ s.head? = some '+' then s.tail else s
  let digits := body.takeWhile isdigit
  if digits = [] then none
  else
    let value : Int := if negative then -(digitsValue digits : Int) else (digitsValue digits : Int)
    if INT_MIN ≤ value ∧ value ≤ INT_MAX then some value else none

/-! ## `extractDepth` -/

/-- The search loop of `extractDepth`,
`for (int i = 0; i < formatFields.size(); i++) if (formatFields[i] == "DP") { dpIndex = i; break; }`,
started at index `i` on the fields from that index on; `-1` is the initial value of `dpIndex`,
kept when no field matches. -/
def findDpIndex : List Str → Nat → Int
  | [], _ => -1
  | field :: rest, i => if field = "DP".toList then (i : Int) else findDpIndex rest (i + 1)

/-- The member function `extractDepth(format, sampleData)`. The `try`/`catch` around `std::stoi`
turns both exceptions into the result `-1`. `none` stands for a read of `sampleFields`
outside its bounds. -/
def extractDepth (format sampleData : Str) : Option Int :=
  let formatFields := split format ':'
  let sampleFields := split sampleData ':'
  let dpIndex := findDpIndex formatFields 0
  if dpIndex = -1 ∨ dpIndex ≥ (sampleFields.length : Int) then some (-1)
  else
    match sampleFields[dpIndex.toNat]? with
    | none => none
    | some token =>
      match stoi token with
      | some depth => some depth
      | none => some (-1)

/-! ## `passesDepthFilter` -/

/-- The loop `for (int i = 9; i < fields.size(); i++)` of `passesDepthFilter`, run over the
fields from index `i` on. `none` stands for the read `split(sampleData, ':')[0]` of an empty
vector (or an out-of-bounds read inside `extractDepth`). -/
def sampleLoop (cfg : Config) (format : Str) : List Str → Option Bool
  | [] => some true
  | sampleData :: rest =>
    match (split sampleData ':')[0]? with
    | none => none
    | some genotype =>
      if isMissingGenotype genotype then sampleLoop cfg format rest
      else
        match extractDepth format sampleData with
        | none => none
        | some depth =>
          if depth = -1 then some false
          else if depth < cfg.minDepth ∨ depth > cfg.maxDepth then some false
          else sampleLoop cfg format rest

/-- The member function `passesDepthFilter(line)`. `none` stands for an out-of-bounds vector
read during the call. -/
def passesDepthFilter (cfg : Config) (line : Str) : Option Bool :=
  let fields := split line '\t'
  if fields.length < 10 then some false
  else
    match fields[8]? with
    | none => none
    | some format => sampleLoop cfg format (fields.drop 9)

/-! ## `readLine` and the two writers

A file is the text it holds once decompressed; zlib's codec is taken to give back what was
written. A reader's state is the part of that text not yet read. Text is held in UTF-8, so a
character takes from one to four bytes, and every size the program or zlib counts is a number
of bytes (`byteLength`). -/

/-- The number of bytes of a text in a `std::string`, in a `char` buffer or in a file. -/
def byteLength : Str → Nat
  | [] => 0
  | c :: rest => c.utf8Size + byteLength rest

/-- What a C function sees of `line.c_str()` and what `line = buffer` copies from a `char`
buffer: the characters before the first NUL. -/
def cString (s : Str) : Str :=
  s.takeWhile (fun c => decide (c ≠ '\x00'))

/-- What a read delivers: a text and the part of the file left unread; or nothing, the end of
the file being reached; or a buffer filled up to the middle of a multi-byte character, whose
content is then not a sequence of characters and is not followed further here. -/
inductive ReadResult where
  | text (content rest : Str)
  | endOfFile
  | insideCharacter
deriving DecidableEq

/-- The bytes one call of zlib's `gzgets` moves into its buffer when it may still store `room`
bytes, and the text left after them: it reads until `room` bytes are read, or a newline is
read and stored, or the end of the file. `none` stands for a buffer that is full after a part
only of the bytes of a character. -/
def gzgetsTake : Nat → Str → Option (Str × Str)
  | _, [] => some ([], [])
  | room, c :: rest =>
    if room = 0 then some ([], c :: rest)
    else if c = '\n' then some ([c], rest)
    else if c.utf8Size ≤ room then
      match gzgetsTake (room - c.utf8Size) rest with
      | some (buffer, left) => some (c :: buffer, left)
      | none => none
    else none

/-- The library call `gzgets(file, buf, len)` of zlib: at most `len - 1` bytes go into the
buffer. `endOfFile` stands for the result `NULL`, given when no byte was read. -/
def gzgets (stream : Str) (len : Nat) : ReadResult :=
  match gzgetsTake (len - 1) stream with
  | none => ReadResult.insideCharacter
  | some (buffer, rest) =>
    if buffer = [] then ReadResult.endOfFile else ReadResult.text buffer rest

/-- The library call `std::getline(input, line)` on a file stream: the characters before the
next newline, which is read and dropped. `none` stands for a failed read (no character left),
on which the stream converts to false. -/
def getline (stream : Str) : Option (Str × Str) :=
  if stream = [] then none
  else some (stream.takeWhile (fun c => decide (c ≠ '\n')),
             (stream.dropWhile (fun c => decide (c ≠ '\n'))).tail)

/-- The member function `readLine(gzInput, input, line, useGzip)`, on the unread part of the
file: `text line rest` when it returns true, with the line it stores and the part left unread;
`endOfFile` when it returns false. The buffer of the compressed branch is `char buffer[65536]`,
whose content becomes the line up to its first NUL, less a final newline. -/
def readLine (useGzip : Bool) (stream : Str) : ReadResult :=
  if useGzip then
    match gzgets stream 65536 with
    | ReadResult.text buffer rest =>
      ReadResult.text
        (if (cString buffer).getLast? = some '\n' then (cString buffer).dropLast
         else cString buffer) rest
    | ReadResult.endOfFile => ReadResult.endOfFile
    | ReadResult.insideCharacter => ReadResult.insideCharacter
  else
    match getline stream with
    | some (line, rest) => ReadResult.text line rest
    | none => ReadResult.endOfFile

/-- The loop `while (readLine(...))`, as the list of the lines it delivers, run for at most
`fuel` calls. `none` stands for a read that stopped inside a multi-byte character. -/
def readLines (useGzip : Bool) : Nat → Str → Option (List Str)
  | 0, _ => some []
  | fuel + 1, stream =>
    match readLine useGzip stream with
    | ReadResult.endOfFile => some []
    | ReadResult.insideCharacter => none
    | ReadResult.text line rest =>
      match readLines useGzip fuel rest with
      | some lines => some (line :: lines)
      | none => none

/-- The lines `readLine` delivers from a file with the given content. A successful call reads
at least one character, so one call more than the content has characters is enough. -/
def readAllLines (useGzip : Bool) (content : Str) : Option (List Str) :=
  readLines useGzip (content.length + 1) content

/-- What one write of `filterVCF` adds to the output file. Compressed: `gzprintf(gzOutput,
"%s\n", line.c_str())`, which writes nothing when the formatted text has more than `capacity`
bytes, the most one `gzprintf` call can write (8191 with zlib's default buffer); the program
does not look at its result. Plain: `output << line << std::endl`. -/
def writeLine (capacity : Nat) (useGzip : Bool) (line : Str) : Str :=
  if useGzip then
    if byteLength (cString line ++ ['\n']) ≤ capacity then cString line ++ ['\n'] else []
  else line ++ ['\n']

/-- The content of the output file after the lines are written one after the other. -/
def writeLines (capacity : Nat) (useGzip : Bool) : List Str → Str
  | [] => []
  | line :: rest => writeLine capacity useGzip line ++ writeLines capacity useGzip rest

/-! ## The driver loop of `filterVCF` -/

/-- The value an `int` holds after an arithmetic result `x` is stored, on a 32-bit
two's-complement machine. -/
def wrapInt (x : Int) : Int := (x + 2147483648) % 4294967296 - 2147483648

/-- The variables the driver loop of `filterVCF` updates: the text written to the output file so
far (as the file holds it once decompressed) and the two counters. -/
structure DriverState where
  output : Str
  totalVariants : Int
  passedVariants : Int
deriving DecidableEq

/-- Whether the driver treats `line` as a header line: `line.empty() || line[0] == '#'`. -/
def isHeaderLine (line : Str) : Bool :=
  line.isEmpty || line.head? == some '#'

/-- One iteration of the loop `while (readLine(...))` of `filterVCF`, for the line just read.
A line to keep is written by the branch that `outputIsGzipped` selects (`writeLine`); `capacity`
is what one `gzprintf` call can write. `none` stands for an out-of-bounds read inside
`passesDepthFilter`. -/
def driverStep (capacity : Nat) (outputIsGzipped : Bool) (cfg : Config) (st : DriverState)
    (line : Str) : Option DriverState :=
  if isHeaderLine line then
    some { st with output := st.output ++ writeLine capacity outputIsGzipped line }
  else
    let total := wrapInt (st.totalVariants + 1)
    match passesDepthFilter cfg line with
    | none => none
    | some true =>
      some { output := st.output ++ writeLine capacity outputIsGzipped line,
             totalVariants := total,
             passedVariants := wrapInt (st.passedVariants + 1) }
    | some false => some { st with totalVariants := total }

/-- The loop `while (readLine(...))` of `filterVCF` over the lines `readLine` delivers, from the
state `st`. -/
def driverLoop (capacity : Nat) (outputIsGzipped : Bool) (cfg : Config) :
    DriverState → List Str → Option DriverState
  | st, [] => some st
  | st, line :: rest =>
    match driverStep capacity outputIsGzipped cfg st line with
    | none => none
    | some st' => driverLoop capacity outputIsGzipped cfg st' rest

/-- The driver loop of `filterVCF` from its initial state: nothing written, both counters 0. -/
def filterVCF (capacity : Nat) (outputIsGzipped : Bool) (cfg : Config) (lines : List Str) :
    Option DriverState :=
  driverLoop capacity outputIsGzipped cfg
    { output := [], totalVariants := 0, passedVariants := 0 } lines

/-- The number `totalVariants - passedVariants` that `filterVCF` prints as "Filtered variants". -/
def filteredVariants (st : DriverState) : Int :=
  wrapInt (st.totalVariants - st.passedVariants)

/-- With plain output, what the output file holds when the loop stops: at the end of the input,
or at the line on which `passesDepthFilter` reads outside a vector and the process dies. Each
plain write ends with `std::endl`, which flushes the stream, so what was written before stays
in the file. -/
def plainOutputAtStop (cfg : Config) : List Str → Str
  | [] => []
  | line :: rest =>
    if isHeaderLine line then writeLine 0 false line ++ plainOutputAtStop cfg rest
    else
      match passesDepthFilter cfg line with
      | none => []
      | some true => writeLine 0 false line ++ plainOutputAtStop cfg rest
      | some false => plainOutputAtStop cfg rest

/-! ## Vocabulary of the statements

The definitions below are not part of the program: they name what the statements about it
speak of. -/

/-- The tokenizer the specification describes: the segments of `s` between consecutive
occurrences of `d`, every empty segment kept, the one after a final delimiter included. -/
def splitKeepEmpty (d : Char) : Str → List Str
  | [] => [[]]
  | c :: rest =>
    if c = d then [] :: splitKeepEmpty d rest
    else (splitKeepEmpty d rest).modifyHead (c :: ·)

/-- Removes the last element of a list of segments when that element is empty. -/
def dropTrailingEmpty (segs : List Str) : List Str :=
  if segs.getLast? = some [] then segs.dropLast else segs

/-- The genotype of a sample column as the specification words it: the text before the first
colon (the whole column when it has no colon). -/
def genotypeOf (sampleData : Str) : Str :=
  sampleData.takeWhile (fun c => decide (c ≠ ':'))

/-- What the depth filter asks of one sample column: its genotype is missing, or `extractDepth`
finds a depth (a result other than the sentinel `-1`) inside the configured range. -/
def SampleOk (cfg : Config) (format sampleData : Str) : Prop :=
  isMissingGenotype (genotypeOf sampleData) = true ∨
    ∃ d, extractDepth format sampleData = some d ∧ d ≠ -1 ∧
      cfg.minDepth ≤ d ∧ d ≤ cfg.maxDepth

/-- Whether the driver writes `line`: it is a header line, or `passesDepthFilter` returns true. -/
def isWritten (cfg : Config) (line : Str) : Bool :=
  isHeaderLine line || passesDepthFilter cfg line == some true

/-- Whether `line` is a variant line that passes the filter. -/
def isPassedVariant (cfg : Config) (line : Str) : Bool :=
  !isHeaderLine line && passesDepthFilter cfg line == some true

/-- Whether the driver counts `line` as a variant: it is not a header line. -/
def isVariantLine (line : Str) : Bool := !isHeaderLine line

/-- Field 8 of the line, the FORMAT column (the empty string when the line has fewer than 9
fields). -/
def formatOf (line : Str) : Str := (split line '\t').getD 8 []

/-- The sample columns of the line: its fields from index 9 on. -/
def samplesOf (line : Str) : List Str := (split line '\t').drop 9

/-! ## Concrete records used below

Each is one line of a VCF file: eight leading columns, the FORMAT column, then the sample
columns, separated by tabs. -/

/-- An 11-field record whose first sample column is empty: two tabs follow `GT:DP`. -/
def recordEmptyFirstSample : Str :=
  "chr1\t100\t.\tA\tG\t50\tPASS\t.\tGT:DP\t\t0/1:15".toList

/-- A 10-field record whose single sample has the DP value `-1`. -/
def recordDepthMinusOne : Str :=
  "chr1\t100\t.\tA\tG\t50\tPASS\t.\tGT:DP\t0/1:-1".toList

/-- A 12-field record with depths 10 and 20 and one ungenotyped sample. -/
def recordBoundaryDepths : Str :=
  "chr1\t100\t.\tA\tG\t50\tPASS\t.\tGT:DP\t0/1:10\t1/1:20\t./.:3".toList

/-- An 11-field record in which every sample column has a missing genotype, the first of them
being the empty column. -/
def recordAllMissing : Str :=
  "chr1\t100\t.\tA\tG\t50\tPASS\t.\tGT:DP\t\t./.:7".toList

/-- A 10-field record whose FORMAT column has no DP key. -/
def recordWithoutDepth : Str :=
  "chr1\t100\t.\tA\tG\t50\tPASS\t.\tGT\t0/1".toList

/-- A 10-field record with a readable depth. -/
def recordDepthThirty : Str :=
  "chr1\t100\t.\tA\tG\t50\tPASS\t.\tGT:DP\t0/1:30".toList

/-- An 11-field record whose FORMAT column has no DP key, with an empty sample column before a
genotyped one. -/
def recordNoDepthKey : Str :=
  "chr1\t100\t.\tA\tG\t50\tPASS\t.\tGT\t\t0/1".toList

/-- A record the default configuration accepts: at least 10 fields, no sample column empty, and
every sample column either has a missing genotype or a depth that `extractDepth` finds and
that is not negative. -/
def HasReadableDepths (line : Str) : Prop :=
  10 ≤ (split line '\t').length ∧
    ∀ s ∈ samplesOf line, s ≠ [] ∧
      (isMissingGenotype (genotypeOf s) = true ∨
        ∃ d, extractDepth (formatOf line) s = some d ∧ 0 ≤ d)

/-! ## Further vocabulary and records -/

/-- Position `p` is the first one of `fields` whose token is exactly `DP`. -/
def IsFirstDP (fields : List Str) (p : Nat) : Prop :=
  fields[p]? = some "DP".toList ∧ ∀ q, q < p → fields[q]? ≠ some "DP".toList

/-- A base-10 integer as the specification means it: one optional sign, then one or more
decimal digits, and nothing else. -/
def isDecimalInteger (t : Str) : Bool :=
  if t.head? = some '-' ∨ t.head? = some '+' then !t.tail.isEmpty && t.tail.all isdigit
  else !t.isEmpty && t.all isdigit

/-- The value of a base-10 integer written as in `isDecimalInteger`. -/
def decimalValue (t : Str) : Int :=
  if t.head? = some '-' then -(digitsValue t.tail : Int)
  else if t.head? = some '+' then (digitsValue t.tail : Int)
  else (digitsValue t : Int)

/-- What `extractDepth` makes of a number read from the DP token: the number when it fits an
`int`, the result `-1` otherwise. -/
def depthOfNumber (v : Int) : Int :=
  if INT_MIN ≤ v ∧ v ≤ INT_MAX then v else -1

/-- A line that ends with two tabs after the FORMAT column: `split` gives it 10 fields, the last
of them the empty sample column. -/
def recordTwoTrailingTabs : Str :=
  "chr1\t100\t.\tA\tG\t50\tPASS\t.\tGT:DP\t\t".toList

/-- A 10-field record whose single sample has the DP value `-5`. -/
def recordNegativeDepth : Str :=
  "chr1\t100\t.\tA\tG\t50\tPASS\t.\tGT:DP\t0/1:-5".toList

/-- A 12-field record whose first sample has depth 5 and whose second sample column is empty. -/
def recordLowDepthThenEmpty : Str :=
  "chr1\t100\t.\tA\tG\t50\tPASS\t.\tGT:DP\t0/1:5\t\t./.".toList

/-! ## `isGzipped` and the output file name -/

/-- The member function `isGzipped(filename)`:
`filename.size() >= 3 && filename.substr(filename.size() - 3) == ".gz"`. -/
def isGzipped (filename : Str) : Bool :=
  decide (filename.length ≥ 3) && filename.drop (filename.length - 3) == ".gz".toList

/-- The end of `parseArguments`: `if (outputFile.empty()) outputFile = "filtered_" + inputFile;`,
giving the output file name the run uses. -/
def resolveOutputFile (inputFile outputFile : Str) : Str :=
  if outputFile.isEmpty then "filtered_".toList ++ inputFile else outputFile

/-- The content of a file that holds exactly the given lines, each followed by a newline. -/
def textOf : List Str → Str
  | [] => []
  | line :: rest => line ++ '\n' :: textOf rest

/-- A 10-field record that passes under the bounds 10 and 20 and whose eighth column ends with
a NUL character. -/
def recordNulInInfo : Str :=
  "chr1\t100\t.\tA\tG\t50\tPASS\t.\x00\tGT:DP\t0/1:15".toList

/-! ## Facts about `split` -/

theorem splitKeepEmpty_ne_nil (d : Char) (s : Str) : splitKeepEmpty d s ≠ [] := by
  induction s with
  | nil => simp [splitKeepEmpty]
  | cons c rest ih =>
    unfold splitKeepEmpty
    split
    · simp
    · simpa using ih

theorem splitKeepEmpty_eq_splitOn (d : Char) (s : Str) : splitKeepEmpty d s = s.splitOn d := by
  induction s with
  | nil => rfl
  | cons c rest ih =>
    unfold splitKeepEmpty
    rw [List.splitOn, List.splitOnP_cons, ih, List.splitOn]
    by_cases h : c = d <;> simp [h]

theorem splitKeepEmpty_intercalate (d : Char) (s : Str) :
    [d].intercalate (splitKeepEmpty d s) = s := by
  rw [splitKeepEmpty_eq_splitOn]
  exact List.intercalate_splitOn s d

theorem splitKeepEmpty_no_delimiter (d : Char) (s : Str) :
    ∀ seg ∈ splitKeepEmpty d s, d ∉ seg := by
  induction s with
  | nil => simp [splitKeepEmpty]
  | cons c rest ih =>
    unfold splitKeepEmpty
    by_cases h : c = d
    · simpa [h] using ih
    · rw [if_neg h]
      obtain ⟨y, l, hyl⟩ := List.exists_cons_of_ne_nil (splitKeepEmpty_ne_nil d rest)
      rw [hyl] at ih ⊢
      intro seg hseg
      simp only [List.modifyHead_cons, List.mem_cons] at hseg
      rcases hseg with rfl | hseg
      · intro hm
        rcases List.mem_cons.mp hm with e | e
        · exact h e.symm
        · exact ih y (List.mem_cons_self _ _) e
      · exact ih seg (List.mem_cons_of_mem _ hseg)

theorem splitKeepEmpty_length (d : Char) (s : Str) :
    (splitKeepEmpty d s).length = s.count d + 1 := by
  induction s with
  | nil => simp [splitKeepEmpty]
  | cons c rest ih =>
    unfold splitKeepEmpty
    by_cases h : c = d
    · subst h; simp [ih]
    · have h' : (c == d) = false := by simpa using h
      simp [h, ih, List.count_cons, h']

theorem splitKeepEmpty_of_not_mem (d : Char) (s : Str) (h : d ∉ s) :
    splitKeepEmpty d s = [s] := by
  induction s with
  | nil => rfl
  | cons c rest ih =>
    have hc : c ≠ d := fun e => h (by simp [e])
    have hr : d ∉ rest := fun e => h (List.mem_cons_of_mem _ e)
    simp [splitKeepEmpty, hc, ih hr]

theorem splitKeepEmpty_getLast (d : Char) (s : Str) :
    (splitKeepEmpty d s).getLast? = some [] ↔ s = [] ∨ s.getLast? = some d := by
  induction s with
  | nil => simp [splitKeepEmpty]
  | cons c rest ih =>
    obtain ⟨y, l, hyl⟩ := List.exists_cons_of_ne_nil (splitKeepEmpty_ne_nil d rest)
    unfold splitKeepEmpty
    by_cases h : c = d
    · subst h
      rw [if_pos rfl, hyl, List.getLast?_cons_cons, ← hyl, ih]
      cases rest with
      | nil => simp
      | cons b r => simp [List.getLast?_cons_cons]
    · rw [if_neg h, hyl, List.modifyHead_cons]
      cases l with
      | nil =>
        have hlen := splitKeepEmpty_length d rest
        rw [hyl] at hlen
        have hcnt : rest.count d = 0 := by simpa using hlen.symm
        have hnm : d ∉ rest := List.count_eq_zero.mp hcnt
        cases rest with
        | nil => simp [h]
        | cons b r =>
          have : (b :: r).getLast? ≠ some d := by
            intro e
            exact hnm (List.mem_of_getLast?_eq_some e)
          simp [List.getLast?_cons_cons, this]
      | cons z l' =>
        rw [List.getLast?_cons_cons]
        have ih' := ih
        rw [hyl, List.getLast?_cons_cons] at ih'
        rw [ih']
        cases rest with
        | nil => simp [splitKeepEmpty] at hyl
        | cons b r => simp [List.getLast?_cons_cons]

theorem dropTrailingEmpty_cons (x : Str) (l : List Str) (h : l ≠ []) :
    dropTrailingEmpty (x :: l) = x :: dropTrailingEmpty l := by
  obtain ⟨y, l', rfl⟩ := List.exists_cons_of_ne_nil h
  simp only [dropTrailingEmpty, List.getLast?_cons_cons, List.dropLast_cons₂]
  split <;> rfl

theorem modifyHead_nil_append (l : List Str) : l.modifyHead (fun x : Str => [] ++ x) = l := by
  cases l <;> simp

theorem splitLoop_eq (d : Char) (s tok : Str) :
    splitLoop d s tok = dropTrailingEmpty ((splitKeepEmpty d s).modifyHead (tok ++ ·)) := by
  induction s generalizing tok with
  | nil =>
    simp [splitLoop, splitKeepEmpty, dropTrailingEmpty]
  | cons c rest ih =>
    unfold splitLoop splitKeepEmpty
    by_cases h : c = d
    · simp only [h, if_true, List.modifyHead_cons, List.append_nil]
      rw [dropTrailingEmpty_cons _ _ (splitKeepEmpty_ne_nil d rest), ih]
      congr 2
      have : (fun x : Str => [] ++ x) = id := by funext x; simp
      rw [this]; simp
    · simp only [h, if_false, List.modifyHead_modifyHead]
      rw [ih]
      congr 2
      funext x
      simp

theorem split_eq_dropTrailingEmpty (s : Str) (d : Char) :
    split s d = dropTrailingEmpty (splitKeepEmpty d s) := by
  rw [split, splitLoop_eq]
  congr 1
  have : (fun x : Str => [] ++ x) = id := by funext x; simp
  rw [this]; simp

theorem splitLoop_head (d : Char) (s tok : Str) :
    (splitLoop d s tok)[0]? =
      if s = [] ∧ tok = [] then none else some (tok ++ s.takeWhile (fun c => decide (c ≠ d))) := by
  induction s generalizing tok with
  | nil =>
    by_cases h : tok = [] <;> simp [splitLoop, h]
  | cons c rest ih =>
    unfold splitLoop
    by_cases h : c = d
    · simp [h]
    · simp [h, ih, List.takeWhile_cons]

theorem split_head (s : Str) (d : Char) :
    (split s d)[0]? = if s = [] then none else some (s.takeWhile (fun c => decide (c ≠ d))) := by
  rw [split, splitLoop_head]
  simp

theorem splitLoop_append_delim (d : Char) (a b tok : Str) :
    splitLoop d (a ++ d :: b) tok =
      (splitKeepEmpty d a).modifyHead (tok ++ ·) ++ splitLoop d b [] := by
  induction a generalizing tok with
  | nil => simp [splitLoop, splitKeepEmpty]
  | cons c rest ih =>
    rw [List.cons_append]
    by_cases h : c = d
    · simp only [splitLoop, splitKeepEmpty, h, if_true, List.modifyHead_cons, List.append_nil,
        List.cons_append]
      rw [ih, modifyHead_nil_append]
    · simp only [splitLoop, splitKeepEmpty, h, if_false, List.modifyHead_modifyHead]
      rw [ih]
      congr 2
      funext x
      simp

theorem split_append_delim (d : Char) (a b : Str) :
    split (a ++ d :: b) d = splitKeepEmpty d a ++ split b d := by
  rw [split, splitLoop_append_delim, modifyHead_nil_append, split]

theorem split_of_not_mem (s : Str) (d : Char) (h : d ∉ s) :
    split s d = if s = [] then [] else [s] := by
  rw [split_eq_dropTrailingEmpty, splitKeepEmpty_of_not_mem d s h]
  by_cases hs : s = [] <;> simp [dropTrailingEmpty, hs]

theorem split_eq (s : Str) (d : Char) :
    split s d =
      if s = [] ∨ s.getLast? = some d then (splitKeepEmpty d s).dropLast
      else splitKeepEmpty d s := by
  rw [split_eq_dropTrailingEmpty, dropTrailingEmpty]
  by_cases h : s = [] ∨ s.getLast? = some d
  · rw [if_pos h, if_pos ((splitKeepEmpty_getLast d s).mpr h)]
  · rw [if_neg h, if_neg (fun e => h ((splitKeepEmpty_getLast d s).mp e))]

theorem split_length (s : Str) (d : Char) :
    (split s d).length = if s = [] ∨ s.getLast? = some d then s.count d else s.count d + 1 := by
  rw [split_eq]
  split <;> simp [splitKeepEmpty_length]

theorem split_no_delimiter (s : Str) (d : Char) : ∀ seg ∈ split s d, d ∉ seg := by
  intro seg hseg
  rw [split_eq_dropTrailingEmpty, dropTrailingEmpty] at hseg
  split at hseg
  · exact splitKeepEmpty_no_delimiter d s seg (List.mem_of_mem_dropLast hseg)
  · exact splitKeepEmpty_no_delimiter d s seg hseg

theorem intercalate_cons (d : Char) (x : Str) (l : List Str) :
    [d].intercalate (x :: l) = x ++ (if l = [] then [] else d :: [d].intercalate l) := by
  cases l with
  | nil => simp [List.intercalate]
  | cons y ys => simp [List.intercalate, List.intersperse]

theorem splitLoop_eq_nil (d : Char) (s tok : Str) :
    splitLoop d s tok = [] ↔ s = [] ∧ tok = [] := by
  induction s generalizing tok with
  | nil => by_cases h : tok = [] <;> simp [splitLoop, h]
  | cons c rest ih =>
    unfold splitLoop
    by_cases h : c = d
    · simp [h]
    · simp [h, ih]

theorem splitLoop_intercalate (d : Char) (s tok : Str) :
    [d].intercalate (splitLoop d s tok) =
      tok ++ (if s.getLast? = some d then s.dropLast else s) := by
  induction s generalizing tok with
  | nil => by_cases h : tok = [] <;> simp [splitLoop, h, List.intercalate]
  | cons c rest ih =>
    by_cases h : c = d
    · subst h
      simp only [splitLoop, if_true, intercalate_cons, ih, splitLoop_eq_nil, and_true,
        List.nil_append]
      cases rest with
      | nil => simp
      | cons b r =>
        simp only [List.getLast?_cons_cons, List.dropLast_cons₂, reduceCtorEq, if_false]
        split <;> rfl
    · simp only [splitLoop, if_neg h, ih]
      cases rest with
      | nil => simp [h]
      | cons b r =>
        simp only [List.getLast?_cons_cons, List.dropLast_cons₂, List.append_assoc,
          List.singleton_append]
        split <;> rfl

theorem split_intercalate (s : Str) (d : Char) :
    [d].intercalate (split s d) = if s.getLast? = some d then s.dropLast else s := by
  rw [split, splitLoop_intercalate]
  rfl

/-! ## Facts about `extractDepth` -/

theorem findDpIndex_bounds (l : List Str) (i : Nat) :
    findDpIndex l i = -1 ∨
      ((i : Int) ≤ findDpIndex l i ∧ findDpIndex l i < (i : Int) + (l.length : Int)) := by
  induction l generalizing i with
  | nil => left; rfl
  | cons f rest ih =>
    unfold findDpIndex
    by_cases h : f = "DP".toList
    · right
      rw [if_pos h]
      simp only [List.length_cons]
      push_cast
      omega
    · rw [if_neg h]
      rcases ih (i + 1) with h1 | ⟨h1, h2⟩
      · left; exact h1
      · right
        simp only [List.length_cons]
        push_cast at h1 h2 ⊢
        omega

theorem findDpIndex_eq_neg_one_iff (l : List Str) (i : Nat) :
    findDpIndex l i = -1 ↔ "DP".toList ∉ l := by
  induction l generalizing i with
  | nil => simp [findDpIndex]
  | cons f rest ih =>
    unfold findDpIndex
    by_cases h : f = "DP".toList
    · rw [if_pos h]
      constructor
      · intro e; omega
      · intro e; exact absurd (by simp [h]) e
    · rw [if_neg h, ih]
      simp [List.mem_cons, Ne.symm h]
      intro _ e
      exact h e.symm

theorem stoi_range (t : Str) (v : Int) (h : stoi t = some v) : INT_MIN ≤ v ∧ v ≤ INT_MAX := by
  unfold stoi at h
  simp only at h
  split_ifs at h <;> cases h <;> assumption

theorem extractDepth_returns (format sampleData : Str) :
    ∃ v, extractDepth format sampleData = some v := by
  unfold extractDepth
  simp only
  split
  · exact ⟨_, rfl⟩
  · rename_i hc
    have hb := findDpIndex_bounds (split format ':') 0
    have h1 : ¬ findDpIndex (split format ':') 0 = -1 := fun e => hc (Or.inl e)
    have h2 : findDpIndex (split format ':') 0 < ((split sampleData ':').length : Int) := by
      by_contra e
      exact hc (Or.inr (by omega))
    rcases hb with hb | ⟨hb1, _⟩
    · exact absurd hb h1
    · have hlt : (findDpIndex (split format ':') 0).toNat < (split sampleData ':').length := by
        omega
      rw [List.getElem?_eq_getElem hlt]
      simp only
      split
      · exact ⟨_, rfl⟩
      · exact ⟨_, rfl⟩

theorem extractDepth_range (format sampleData : Str) (v : Int)
    (h : extractDepth format sampleData = some v) : INT_MIN ≤ v ∧ v ≤ INT_MAX := by
  unfold extractDepth at h
  simp only at h
  split at h
  · have hv := Option.some.inj h
    rw [← hv]; decide
  · split at h
    · exact absurd h (by simp)
    · split at h
      · rename_i depth hst
        have hv := Option.some.inj h
        rw [← hv]
        exact stoi_range _ _ hst
      · have hv := Option.some.inj h
        rw [← hv]; decide

theorem extractDepth_of_no_DP (format sampleData : Str)
    (h : "DP".toList ∉ split format ':') : extractDepth format sampleData = some (-1) := by
  unfold extractDepth
  simp only
  rw [if_pos (Or.inl ((findDpIndex_eq_neg_one_iff _ 0).mpr h))]

/-! ## Facts about `passesDepthFilter` -/

theorem sampleLoop_cons_empty (cfg : Config) (format : Str) (rest : List Str) :
    sampleLoop cfg format ([] :: rest) = none := rfl

theorem sampleLoop_cons (cfg : Config) (format sampleData : Str) (rest : List Str) (d : Int)
    (hne : sampleData ≠ []) (hd : extractDepth format sampleData = some d) :
    sampleLoop cfg format (sampleData :: rest) =
      if isMissingGenotype (genotypeOf sampleData) = true then sampleLoop cfg format rest
      else if d = -1 then some false
      else if d < cfg.minDepth ∨ d > cfg.maxDepth then some false
      else sampleLoop cfg format rest := by
  rw [sampleLoop, split_head, if_neg hne]
  simp only [hd]
  rfl

theorem sampleLoop_returns (cfg : Config) (format : Str) (samples : List Str)
    (hne : ∀ s ∈ samples, s ≠ []) : ∃ b, sampleLoop cfg format samples = some b := by
  induction samples with
  | nil => exact ⟨true, rfl⟩
  | cons s rest ih =>
    obtain ⟨d, hd⟩ := extractDepth_returns format s
    have ih' := ih (fun x hx => hne x (List.mem_cons_of_mem _ hx))
    rw [sampleLoop_cons cfg format s rest d (hne s (List.mem_cons_self _ _)) hd]
    split_ifs
    · exact ih'
    · exact ⟨false, rfl⟩
    · exact ⟨false, rfl⟩
    · exact ih'

theorem sampleLoop_eq_true_iff (cfg : Config) (format : Str) (samples : List Str)
    (hne : ∀ s ∈ samples, s ≠ []) :
    sampleLoop cfg format samples = some true ↔ ∀ s ∈ samples, SampleOk cfg format s := by
  induction samples with
  | nil => simp [sampleLoop]
  | cons s rest ih =>
    obtain ⟨d, hd⟩ := extractDepth_returns format s
    have ih' := ih (fun x hx => hne x (List.mem_cons_of_mem _ hx))
    rw [sampleLoop_cons cfg format s rest d (hne s (List.mem_cons_self _ _)) hd]
    simp only [List.forall_mem_cons, SampleOk, hd, Option.some.injEq, exists_eq_left']
    split_ifs with h1 h2 h3
    · rw [ih']
      simp [h1, SampleOk]
    · simp [h1, h2]
    · simp only [h1, false_or]
      have : ¬ (cfg.minDepth ≤ d ∧ d ≤ cfg.maxDepth) := by
        intro ⟨a, b⟩
        rcases h3 with h3 | h3 <;> omega
      simp [this]
    · rw [ih']
      have h4 : cfg.minDepth ≤ d ∧ d ≤ cfg.maxDepth := by
        constructor <;> by_contra e <;> exact h3 (by omega)
      simp [h1, h2, h4, SampleOk]

theorem sampleLoop_true_nonempty (cfg : Config) (format : Str) (samples : List Str)
    (h : sampleLoop cfg format samples = some true) : ∀ s ∈ samples, s ≠ [] := by
  induction samples with
  | nil => simp
  | cons s rest ih =>
    cases s with
    | nil => rw [sampleLoop_cons_empty] at h; exact absurd h (by simp)
    | cons c cs =>
      obtain ⟨d, hd⟩ := extractDepth_returns format (c :: cs)
      rw [sampleLoop_cons cfg format (c :: cs) rest d (by simp) hd] at h
      intro x hx
      rcases List.mem_cons.mp hx with rfl | hx
      · simp
      · split_ifs at h <;> first | exact ih h x hx | exact absurd h (by decide)

theorem passesDepthFilter_of_short (cfg : Config) (line : Str)
    (h : (split line '\t').length < 10) : passesDepthFilter cfg line = some false := by
  simp [passesDepthFilter, h]

theorem passesDepthFilter_of_long (cfg : Config) (line format : Str)
    (hlen : 10 ≤ (split line '\t').length) (hfmt : (split line '\t')[8]? = some format) :
    passesDepthFilter cfg line = sampleLoop cfg format ((split line '\t').drop 9) := by
  have : ¬ (split line '\t').length < 10 := by omega
  simp [passesDepthFilter, this, hfmt]

theorem passesDepthFilter_eq_sampleLoop (cfg : Config) (line : Str)
    (hlen : 10 ≤ (split line '\t').length) :
    passesDepthFilter cfg line = sampleLoop cfg (formatOf line) (samplesOf line) := by
  have h8 : 8 < (split line '\t').length := by omega
  have hfmt : (split line '\t')[8]? = some (formatOf line) := by
    rw [formatOf, List.getD_eq_getElem?_getD, List.getElem?_eq_getElem h8]
    rfl
  exact passesDepthFilter_of_long cfg line (formatOf line) hlen hfmt

/-- A line of fewer than 10 fields is rejected; on a line of at least 10 fields none of whose
sample columns is empty, `passesDepthFilter` returns a boolean, true exactly when every sample
column meets `SampleOk` against the FORMAT column. -/
theorem passesDepthFilter_characterised (cfg : Config) (line : Str)
    (hne : ∀ s ∈ samplesOf line, s ≠ []) :
    (passesDepthFilter cfg line = some true ∨ passesDepthFilter cfg line = some false) ∧
    (passesDepthFilter cfg line = some true ↔
      10 ≤ (split line '\t').length ∧ ∀ s ∈ samplesOf line, SampleOk cfg (formatOf line) s) := by
  by_cases hlen : 10 ≤ (split line '\t').length
  · rw [passesDepthFilter_eq_sampleLoop cfg line hlen]
    obtain ⟨b, hb⟩ := sampleLoop_returns cfg (formatOf line) (samplesOf line) hne
    refine ⟨?_, ?_⟩
    · cases b
      · exact Or.inr hb
      · exact Or.inl hb
    · rw [sampleLoop_eq_true_iff cfg _ _ hne]
      simp [hlen]
  · rw [passesDepthFilter_of_short cfg line (by omega)]
    exact ⟨Or.inr rfl, by simp [hlen]⟩

/-- A record of at least 10 fields none of whose sample columns is empty and all of whose
samples have a missing genotype passes, whatever the FORMAT column and the configuration. -/
theorem passesDepthFilter_all_missing (cfg : Config) (line : Str)
    (hlen : 10 ≤ (split line '\t').length)
    (hne : ∀ s ∈ samplesOf line, s ≠ [])
    (hmiss : ∀ s ∈ samplesOf line, isMissingGenotype (genotypeOf s) = true) :
    passesDepthFilter cfg line = some true := by
  rw [(passesDepthFilter_characterised cfg line hne).2]
  exact ⟨hlen, fun s m => Or.inl (hmiss s m)⟩

/-- A record whose FORMAT column has no `DP` token and one of whose samples has a non-missing
genotype never passes; when none of its sample columns is empty it is rejected. -/
theorem passesDepthFilter_no_depth_key (cfg : Config) (line : Str)
    (hdp : "DP".toList ∉ split (formatOf line) ':')
    (hgt : ∃ s ∈ samplesOf line, isMissingGenotype (genotypeOf s) = false) :
    passesDepthFilter cfg line ≠ some true ∧
    ((∀ s ∈ samplesOf line, s ≠ []) → passesDepthFilter cfg line = some false) := by
  have hnot : ∀ (_ : ∀ s ∈ samplesOf line, s ≠ []), passesDepthFilter cfg line ≠ some true := by
    intro hne htrue
    obtain ⟨s, hs, hm⟩ := hgt
    have hok := ((passesDepthFilter_characterised cfg line hne).2.mp htrue).2 s hs
    rcases hok with h | ⟨d, hd, hd1, _⟩
    · rw [hm] at h; exact absurd h (by decide)
    · rw [extractDepth_of_no_DP _ _ hdp] at hd
      exact hd1 (Option.some.inj hd).symm
  constructor
  · intro htrue
    by_cases hlen : 10 ≤ (split line '\t').length
    · have h := htrue
      rw [passesDepthFilter_eq_sampleLoop cfg line hlen] at h
      exact hnot (sampleLoop_true_nonempty cfg _ _ h) htrue
    · rw [passesDepthFilter_of_short cfg line (by omega)] at htrue
      exact absurd htrue (by decide)
  · intro hne
    rcases (passesDepthFilter_characterised cfg line hne).1 with h | h
    · exact absurd h (hnot hne)
    · exact h

/-- The fields of a line that starts with eight tab-terminated columns `pre` are the eight
columns followed by the fields of the rest, so the filter's verdict is decided by the rest. -/
theorem passesDepthFilter_after_eight_columns (cfg : Config) (pre rest : Str)
    (hpre : pre.count '\t' = 7) :
    passesDepthFilter cfg (pre ++ '\t' :: rest) =
      if (split rest '\t').length < 2 then some false
      else
        match (split rest '\t')[0]? with
        | none => none
        | some format => sampleLoop cfg format ((split rest '\t').drop 1) := by
  have h8 : (splitKeepEmpty '\t' pre).length = 8 := by
    rw [splitKeepEmpty_length, hpre]
  unfold passesDepthFilter
  simp only [split_append_delim, List.length_append, h8]
  have hget : (splitKeepEmpty '\t' pre ++ split rest '\t')[8]? = (split rest '\t')[0]? := by
    rw [List.getElem?_append_right (by omega), h8]
  have hdrop : (splitKeepEmpty '\t' pre ++ split rest '\t').drop 9 = (split rest '\t').drop 1 := by
    have := @List.drop_append _ (splitKeepEmpty '\t' pre) (split rest '\t') 1
    rw [h8] at this
    exact this
  rw [hget, hdrop]
  by_cases h : (split rest '\t').length < 2
  · have h' : 8 + (split rest '\t').length < 10 := by omega
    rw [if_pos h, if_pos h']
  · have h' : ¬ 8 + (split rest '\t').length < 10 := by omega
    rw [if_neg h, if_neg h']

/-! ## Facts about the DP lookup and `std::stoi` -/

theorem findDpIndex_of_first (l : List Str) (i p : Nat) (h : IsFirstDP l p) :
    findDpIndex l i = ((i + p : Nat) : Int) := by
  induction l generalizing i p with
  | nil => simp [IsFirstDP] at h
  | cons f rest ih =>
    unfold findDpIndex
    cases p with
    | zero =>
      have hf : f = "DP".toList := by simpa [IsFirstDP] using h.1
      rw [if_pos hf]; rfl
    | succ p =>
      have hf : f ≠ "DP".toList := by
        have := h.2 0 (Nat.succ_pos p)
        simpa using this
      rw [if_neg hf]
      have hrest : IsFirstDP rest p := by
        refine ⟨by simpa using h.1, ?_⟩
        intro q hq
        have := h.2 (q + 1) (Nat.succ_lt_succ hq)
        simpa using this
      rw [ih (i + 1) p hrest]
      congr 1
      omega

theorem extractDepth_of_first (format sampleData : Str) (p : Nat)
    (hp : IsFirstDP (split format ':') p) :
    extractDepth format sampleData =
      match (split sampleData ':')[p]? with
      | none => some (-1)
      | some tok => some ((stoi tok).getD (-1)) := by
  have hidx := findDpIndex_of_first (split format ':') 0 p hp
  simp only [Nat.zero_add] at hidx
  unfold extractDepth
  simp only [hidx]
  by_cases hlt : p < (split sampleData ':').length
  · have hc : ¬ ((p : Int) = -1 ∨ (p : Int) ≥ ((split sampleData ':').length : Int)) := by omega
    rw [if_neg hc, Int.toNat_ofNat, List.getElem?_eq_getElem hlt]
    simp only
    cases stoi (split sampleData ':')[p] <;> rfl
  · have hc : (p : Int) = -1 ∨ (p : Int) ≥ ((split sampleData ':').length : Int) := by
      right; omega
    rw [if_pos hc, List.getElem?_eq_none (by omega)]

theorem isdigit_not_special (c : Char) (h : isdigit c = true) :
    isspace c = false ∧ c ≠ '-' ∧ c ≠ '+' := by
  simp only [isdigit, Bool.and_eq_true, decide_eq_true_eq] at h
  have h48 : '0'.toNat = 48 := by decide
  have h57 : '9'.toNat = 57 := by decide
  rw [h48] at h
  refine ⟨?_, ?_, ?_⟩
  · by_contra hs
    have hs' : isspace c = true := by simpa using hs
    simp only [isspace, Bool.or_eq_true, beq_iff_eq] at hs'
    rcases hs' with ((((hs' | hs') | hs') | hs') | hs') | hs' <;>
      (subst hs'; revert h; decide)
  · intro e; subst e; revert h; decide
  · intro e; subst e; revert h; decide

theorem dropWhile_isspace_append (ws s : Str) (hws : ws.all isspace = true)
    (hs : ∀ c, s.head? = some c → isspace c = false) :
    (ws ++ s).dropWhile isspace = s := by
  induction ws with
  | nil =>
    cases s with
    | nil => rfl
    | cons c cs => simp [List.dropWhile_cons, hs c rfl]
  | cons w ws ih =>
    simp only [List.all_cons, Bool.and_eq_true] at hws
    simp only [List.cons_append, List.dropWhile_cons, hws.1, if_true]
    exact ih hws.2

theorem takeWhile_isdigit_append (ds rest : Str) (hds : ds.all isdigit = true)
    (hrest : ∀ c, rest.head? = some c → isdigit c = false) :
    (ds ++ rest).takeWhile isdigit = ds := by
  induction ds with
  | nil =>
    cases rest with
    | nil => rfl
    | cons c cs => simp [List.takeWhile_cons, hrest c rfl]
  | cons d ds ih =>
    simp only [List.all_cons, Bool.and_eq_true] at hds
    simp only [List.cons_append, List.takeWhile_cons, hds.1, if_true]
    rw [ih hds.2]

/-- How `std::stoi` reads a token made of white space `ws`, a sign `sgn` (possibly absent), a
non-empty run of digits `ds`, and a rest that does not start with a digit: the value of the
signed digits when it fits an `int`, an exception otherwise. What follows the digits is not
looked at. -/
theorem stoi_number (ws sgn ds rest : Str) (hws : ws.all isspace = true)
    (hsgn : sgn = [] ∨ sgn = ['-'] ∨ sgn = ['+'])
    (hne : ds ≠ []) (hds : ds.all isdigit = true)
    (hrest : ∀ c, rest.head? = some c → isdigit c = false) :
    stoi (ws ++ (sgn ++ (ds ++ rest))) =
      if INT_MIN ≤ (if sgn = ['-'] then -(digitsValue ds : Int) else (digitsValue ds : Int)) ∧
          (if sgn = ['-'] then -(digitsValue ds : Int) else (digitsValue ds : Int)) ≤ INT_MAX
      then some (if sgn = ['-'] then -(digitsValue ds : Int) else (digitsValue ds : Int))
      else none := by
  obtain ⟨d, ds', rfl⟩ := List.exists_cons_of_ne_nil hne
  have hd : isdigit d = true := by
    simp only [List.all_cons, Bool.and_eq_true] at hds
    exact hds.1
  obtain ⟨hd1, hd2, hd3⟩ := isdigit_not_special d hd
  have htw := takeWhile_isdigit_append (d :: ds') rest hds hrest
  rcases hsgn with rfl | rfl | rfl
  · have hdrop : (ws ++ ([] ++ (d :: ds' ++ rest))).dropWhile isspace = d :: ds' ++ rest := by
      apply dropWhile_isspace_append ws _ hws
      intro c hc
      simp only [List.nil_append, List.cons_append, List.head?_cons, Option.some.injEq] at hc
      rw [← hc]; exact hd1
    unfold stoi
    simp only [hdrop]
    have h1 : (d :: ds' ++ rest).head? ≠ some '-' := by simpa using hd2
    have h2 : (d :: ds' ++ rest).head? ≠ some '+' := by simpa using hd3
    simp only [h1, h2, or_self, if_false, htw]
    simp
  · have hdrop : (ws ++ (['-'] ++ (d :: ds' ++ rest))).dropWhile isspace =
        '-' :: (d :: ds' ++ rest) := by
      apply dropWhile_isspace_append ws _ hws
      intro c hc
      simp only [List.singleton_append, List.head?_cons, Option.some.injEq] at hc
      rw [← hc]; decide
    unfold stoi
    simp only [hdrop, List.head?_cons, List.tail_cons, true_or, if_true, htw]
    simp
  · have hdrop : (ws ++ (['+'] ++ (d :: ds' ++ rest))).dropWhile isspace =
        '+' :: (d :: ds' ++ rest) := by
      apply dropWhile_isspace_append ws _ hws
      intro c hc
      simp only [List.singleton_append, List.head?_cons, Option.some.injEq] at hc
      rw [← hc]; decide
    have hpm : ¬ (some '+' = some '-') := by decide
    have hpm2 : ¬ (['+'] = ['-']) := by decide
    unfold stoi
    simp only [hdrop, List.head?_cons, List.tail_cons, or_true, if_true, htw, hpm, hpm2,
      if_false]
    simp

/-- When, after white space `ws` and a sign `sgn` (possibly absent), the token has no digit,
`std::stoi` throws. -/
theorem stoi_no_number (ws sgn rest : Str) (hws : ws.all isspace = true)
    (hsgn : sgn = [] ∨ sgn = ['-'] ∨ sgn = ['+'])
    (hrest : ∀ c, rest.head? = some c →
      isdigit c = false ∧ (sgn = [] → isspace c = false ∧ c ≠ '-' ∧ c ≠ '+')) :
    stoi (ws ++ (sgn ++ rest)) = none := by
  have htw : rest.takeWhile isdigit = [] := by
    cases rest with
    | nil => rfl
    | cons c cs => simp [List.takeWhile_cons, (hrest c rfl).1]
  rcases hsgn with rfl | rfl | rfl
  · have hdrop : (ws ++ ([] ++ rest)).dropWhile isspace = rest := by
      apply dropWhile_isspace_append ws _ hws
      intro c hc
      exact ((hrest c (by simpa using hc)).2 rfl).1
    unfold stoi
    simp only [hdrop]
    have h1 : rest.head? ≠ some '-' := fun e => ((hrest _ e).2 rfl).2.1 rfl
    have h2 : rest.head? ≠ some '+' := fun e => ((hrest _ e).2 rfl).2.2 rfl
    simp [h1, h2, htw]
  · have hdrop : (ws ++ (['-'] ++ rest)).dropWhile isspace = '-' :: rest := by
      apply dropWhile_isspace_append ws _ hws
      intro c hc
      simp only [List.singleton_append, List.head?_cons, Option.some.injEq] at hc
      rw [← hc]; decide
    unfold stoi
    simp only [hdrop, List.head?_cons, List.tail_cons, true_or, if_true, htw]
  · have hdrop : (ws ++ (['+'] ++ rest)).dropWhile isspace = '+' :: rest := by
      apply dropWhile_isspace_append ws _ hws
      intro c hc
      simp only [List.singleton_append, List.head?_cons, Option.some.injEq] at hc
      rw [← hc]; decide
    unfold stoi
    simp only [hdrop, List.head?_cons, List.tail_cons, or_true, if_true, htw]

theorem isDecimalInteger_parts (t : Str) (h : isDecimalInteger t = true) :
    ∃ sgn ds, t = sgn ++ ds ∧ (sgn = [] ∨ sgn = ['-'] ∨ sgn = ['+']) ∧ ds ≠ [] ∧
      ds.all isdigit = true ∧
      decimalValue t = if sgn = ['-'] then -(digitsValue ds : Int) else (digitsValue ds : Int) := by
  unfold isDecimalInteger at h
  cases t with
  | nil => simp at h
  | cons c cs =>
    by_cases hm : c = '-'
    · subst hm
      simp only [List.head?_cons, true_or, if_true, List.tail_cons, Bool.and_eq_true,
        Bool.not_eq_true', List.isEmpty_eq_false] at h
      refine ⟨['-'], cs, rfl, Or.inr (Or.inl rfl), ?_, h.2, ?_⟩
      · intro e; rw [e] at h; simp at h
      · simp [decimalValue]
    · by_cases hp : c = '+'
      · subst hp
        have hpm : ¬ (some '+' = some '-') := by decide
        have hpm2 : ¬ (['+'] = ['-']) := by decide
        simp only [List.head?_cons, or_true, if_true, List.tail_cons, Bool.and_eq_true,
          Bool.not_eq_true', List.isEmpty_eq_false] at h
        refine ⟨['+'], cs, rfl, Or.inr (Or.inr rfl), ?_, h.2, ?_⟩
        · intro e; rw [e] at h; simp at h
        · simp [decimalValue, hpm, hpm2]
      · have h1 : ¬ (some c = some '-') := by simpa using hm
        have h2 : ¬ (some c = some '+') := by simpa using hp
        simp only [List.head?_cons, h1, h2, or_self, if_false, Bool.and_eq_true] at h
        refine ⟨[], c :: cs, rfl, Or.inl rfl, by simp, h.2, ?_⟩
        simp [decimalValue, h1, h2]

theorem exists_first_DP (l : List Str) (h : "DP".toList ∈ l) : ∃ p, IsFirstDP l p := by
  induction l with
  | nil => simp at h
  | cons f rest ih =>
    by_cases hf : f = "DP".toList
    · exact ⟨0, by simp [hf], fun q hq => absurd hq (Nat.not_lt_zero q)⟩
    · have hmem : "DP".toList ∈ rest := by
        rcases List.mem_cons.mp h with e | e
        · exact absurd e.symm hf
        · exact e
      obtain ⟨p, hp1, hp2⟩ := ih hmem
      refine ⟨p + 1, by simpa using hp1, ?_⟩
      intro q hq
      cases q with
      | zero => simpa using hf
      | succ q => simpa using hp2 q (by omega)

theorem getD_stoi_number (v : Int) :
    (if INT_MIN ≤ v ∧ v ≤ INT_MAX then some v else none).getD (-1) = depthOfNumber v := by
  unfold depthOfNumber
  split <;> rfl

/-- The only vector read of `passesDepthFilter` that can be out of bounds is
`split(sampleData, ':')[0]` on an empty sample column: when the call does not return, one of the
sample columns is empty. -/
theorem passesDepthFilter_none_only_by_empty_sample (cfg : Config) (line : Str)
    (h : passesDepthFilter cfg line = none) : [] ∈ samplesOf line := by
  by_contra hmem
  have hne : ∀ s ∈ samplesOf line, s ≠ [] := fun s hs e => hmem (e ▸ hs)
  rcases (passesDepthFilter_characterised cfg line hne).1 with h' | h' <;>
    (rw [h] at h'; exact absurd h' (by simp))

/-! ## Facts about adding a sample column and about widening the range -/

theorem sampleLoop_insert_missing (cfg : Config) (format : Str) (X Y : List Str) (c : Str)
    (hc1 : c ≠ []) (hc3 : isMissingGenotype (genotypeOf c) = true) :
    sampleLoop cfg format (X ++ c :: Y) = sampleLoop cfg format (X ++ Y) := by
  induction X with
  | nil =>
    obtain ⟨d, hd⟩ := extractDepth_returns format c
    rw [List.nil_append, List.nil_append, sampleLoop_cons cfg format c Y d hc1 hd, if_pos hc3]
  | cons s X ih =>
    cases s with
    | nil => rfl
    | cons a as =>
      obtain ⟨d, hd⟩ := extractDepth_returns format (a :: as)
      rw [List.cons_append, List.cons_append,
        sampleLoop_cons cfg format (a :: as) _ d (by simp) hd,
        sampleLoop_cons cfg format (a :: as) _ d (by simp) hd, ih]

/-- The verdict on a line is computed from its fields: fewer than 10 is a rejection, otherwise
the sample loop runs on the fields from index 9 on with field 8 as FORMAT. -/
theorem passesDepthFilter_of_fields (cfg : Config) (line : Str) (fields : List Str)
    (h : split line '\t' = fields) :
    passesDepthFilter cfg line =
      if fields.length < 10 then some false
      else
        match fields[8]? with
        | none => none
        | some format => sampleLoop cfg format (fields.drop 9) := by
  subst h
  rfl

theorem verdict_insert_missing (cfg : Config) (A B : List Str) (c : Str)
    (hA : 9 ≤ A.length) (hlen : 10 ≤ (A ++ B).length)
    (hc1 : c ≠ []) (hc3 : isMissingGenotype (genotypeOf c) = true) :
    (if (A ++ c :: B).length < 10 then some false
      else
        match (A ++ c :: B)[8]? with
        | none => none
        | some format => sampleLoop cfg format ((A ++ c :: B).drop 9)) =
    (if (A ++ B).length < 10 then some false
      else
        match (A ++ B)[8]? with
        | none => none
        | some format => sampleLoop cfg format ((A ++ B).drop 9)) := by
  have h1 : ¬ (A ++ c :: B).length < 10 := by
    simp only [List.length_append, List.length_cons] at hlen ⊢
    omega
  have h2 : ¬ (A ++ B).length < 10 := by omega
  rw [if_neg h1, if_neg h2, List.getElem?_append_left (by omega),
    List.getElem?_append_left (by omega), List.drop_append_of_le_length hA,
    List.drop_append_of_le_length hA]
  cases A[8]? with
  | none => rfl
  | some format => exact sampleLoop_insert_missing cfg format _ _ c hc1 hc3

/-- Putting a further sample column `c` that is not empty and has a missing genotype between
two columns of a record of at least 10 fields, after its first 9 or more columns `a`, does not
change the verdict (nor whether there is one). -/
theorem passesDepthFilter_insert_missing_column (cfg : Config) (a b c : Str)
    (ha : 8 ≤ a.count '\t') (hlen : 10 ≤ (split (a ++ '\t' :: b) '\t').length)
    (hc1 : c ≠ []) (hc2 : '\t' ∉ c) (hc3 : isMissingGenotype (genotypeOf c) = true) :
    passesDepthFilter cfg (a ++ '\t' :: (c ++ '\t' :: b)) =
      passesDepthFilter cfg (a ++ '\t' :: b) := by
  have h1 : split (a ++ '\t' :: b) '\t' = splitKeepEmpty '\t' a ++ split b '\t' :=
    split_append_delim '\t' a b
  have h2 : split (a ++ '\t' :: (c ++ '\t' :: b)) '\t' =
      splitKeepEmpty '\t' a ++ c :: split b '\t' := by
    rw [split_append_delim, split_append_delim, splitKeepEmpty_of_not_mem '\t' c hc2]
    rfl
  have hA : 9 ≤ (splitKeepEmpty '\t' a).length := by
    rw [splitKeepEmpty_length]; omega
  rw [passesDepthFilter_of_fields cfg _ _ h2, passesDepthFilter_of_fields cfg _ _ h1]
  rw [h1] at hlen
  exact verdict_insert_missing cfg _ _ c hA hlen hc1 hc3

/-- Adding a further sample column `c` that is not empty and has a missing genotype at the end
of a record of at least 10 fields that does not end with a tab does not change the verdict. -/
theorem passesDepthFilter_append_missing_column (cfg : Config) (line c : Str)
    (hlen : 10 ≤ (split line '\t').length) (hend : line.getLast? ≠ some '\t')
    (hc1 : c ≠ []) (hc2 : '\t' ∉ c) (hc3 : isMissingGenotype (genotypeOf c) = true) :
    passesDepthFilter cfg (line ++ '\t' :: c) = passesDepthFilter cfg line := by
  have hline : line ≠ [] := by
    intro e
    rw [e] at hlen
    exact absurd hlen (by decide)
  have h0 : split line '\t' = splitKeepEmpty '\t' line := by
    rw [split_eq, if_neg]
    rintro (e | e)
    · exact hline e
    · exact hend e
  have h1 : split line '\t' = split line '\t' ++ [] := (List.append_nil _).symm
  have h2 : split (line ++ '\t' :: c) '\t' = split line '\t' ++ c :: [] := by
    rw [split_append_delim, split_of_not_mem c '\t' hc2, if_neg hc1, h0]
  rw [passesDepthFilter_of_fields cfg _ _ h2, passesDepthFilter_of_fields cfg _ _ h1]
  exact verdict_insert_missing cfg _ _ c (by omega) (by simpa using hlen) hc1 hc3

theorem sampleLoop_widen (narrow wide : Config) (hmin : wide.minDepth ≤ narrow.minDepth)
    (hmax : narrow.maxDepth ≤ wide.maxDepth) (format : Str) (samples : List Str) :
    (sampleLoop narrow format samples = some true → sampleLoop wide format samples = some true) ∧
    (sampleLoop wide format samples ≠ none → sampleLoop narrow format samples ≠ none) := by
  induction samples with
  | nil => exact ⟨fun _ => rfl, fun _ => by simp [sampleLoop]⟩
  | cons s rest ih =>
    cases s with
    | nil => exact ⟨fun h => absurd h (by simp [sampleLoop_cons_empty]),
        fun h => absurd (sampleLoop_cons_empty wide format rest) h⟩
    | cons a as =>
      obtain ⟨d, hd⟩ := extractDepth_returns format (a :: as)
      rw [sampleLoop_cons narrow format (a :: as) rest d (by simp) hd,
        sampleLoop_cons wide format (a :: as) rest d (by simp) hd]
      by_cases hm : isMissingGenotype (genotypeOf (a :: as)) = true
      · rw [if_pos hm, if_pos hm]; exact ih
      · rw [if_neg hm, if_neg hm]
        by_cases h1 : d = -1
        · rw [if_pos h1, if_pos h1]
          exact ⟨fun h => absurd h (by decide), fun _ => by decide⟩
        · rw [if_neg h1, if_neg h1]
          by_cases hn : d < narrow.minDepth ∨ d > narrow.maxDepth
          · rw [if_pos hn]
            exact ⟨fun h => absurd h (by decide), fun _ => by decide⟩
          · have hw : ¬ (d < wide.minDepth ∨ d > wide.maxDepth) := by omega
            rw [if_neg hn, if_neg hw]
            exact ih

/-- Widening the range never rejects more: a line that passes under the narrower range passes
under the wider one, and a line on which the filter returns under the wider range is one on
which it returns under the narrower. -/
theorem passesDepthFilter_widen (narrow wide : Config) (hmin : wide.minDepth ≤ narrow.minDepth)
    (hmax : narrow.maxDepth ≤ wide.maxDepth) (line : Str) :
    (passesDepthFilter narrow line = some true → passesDepthFilter wide line = some true) ∧
    (passesDepthFilter wide line ≠ none → passesDepthFilter narrow line ≠ none) := by
  rw [passesDepthFilter_of_fields narrow line _ rfl, passesDepthFilter_of_fields wide line _ rfl]
  by_cases hlen : (split line '\t').length < 10
  · rw [if_pos hlen, if_pos hlen]
    exact ⟨fun h => absurd h (by decide), fun _ => by decide⟩
  · rw [if_neg hlen, if_neg hlen]
    cases (split line '\t')[8]? with
    | none => exact ⟨fun h => absurd h (by simp), fun h => absurd rfl h⟩
    | some format => exact sampleLoop_widen narrow wide hmin hmax format _

/-! ## Facts about the driver loop -/

theorem wrapInt_wrapInt_add_one (a : Int) : wrapInt (wrapInt a + 1) = wrapInt (a + 1) := by
  unfold wrapInt
  omega

theorem wrapInt_of_range (a : Int) (h0 : -2147483648 ≤ a) (h1 : a < 2147483648) :
    wrapInt a = a := by
  unfold wrapInt
  omega

theorem countP_isWritten (cfg : Config) (lines : List Str) :
    lines.countP (isWritten cfg) =
      lines.countP isHeaderLine + lines.countP (isPassedVariant cfg) := by
  induction lines with
  | nil => rfl
  | cons l rest ih =>
    simp only [List.countP_cons, ih, isWritten, isPassedVariant]
    by_cases h1 : isHeaderLine l = true
    · simp only [h1, Bool.true_or, Bool.not_true, Bool.false_and, if_true]
      simp
      omega
    · have h1' : isHeaderLine l = false := by simpa using h1
      simp only [h1', Bool.false_or, Bool.not_false, Bool.true_and]
      simp
      omega

theorem countP_isVariantLine_filter (cfg : Config) (lines : List Str) :
    (lines.filter (isWritten cfg)).countP isVariantLine = lines.countP (isPassedVariant cfg) := by
  rw [List.countP_filter]
  apply List.countP_congr
  intro l _
  simp only [isVariantLine, isWritten, isPassedVariant]
  cases isHeaderLine l <;> simp

theorem countP_isPassedVariant_le (cfg : Config) (lines : List Str) :
    lines.countP (isPassedVariant cfg) ≤ lines.countP isVariantLine := by
  apply List.countP_mono_left
  intro l _ h
  simp only [isPassedVariant, Bool.and_eq_true] at h
  simpa [isVariantLine] using h.1

theorem driverLoop_spec (capacity : Nat) (gz : Bool) (cfg : Config) (lines : List Str)
    (out : Str) (t p : Int)
    (hret : ∀ l ∈ lines, isHeaderLine l = false → passesDepthFilter cfg l ≠ none) :
    driverLoop capacity gz cfg
        { output := out, totalVariants := wrapInt t, passedVariants := wrapInt p } lines =
      some { output := out ++ writeLines capacity gz (lines.filter (isWritten cfg)),
             totalVariants := wrapInt (t + (lines.countP isVariantLine : Nat)),
             passedVariants := wrapInt (p + (lines.countP (isPassedVariant cfg) : Nat)) } := by
  induction lines generalizing out t p with
  | nil => simp [driverLoop, writeLines]
  | cons l rest ih =>
    have hrest : ∀ x ∈ rest, isHeaderLine x = false → passesDepthFilter cfg x ≠ none :=
      fun x hx => hret x (List.mem_cons_of_mem _ hx)
    by_cases hh : isHeaderLine l = true
    · have hstep : driverStep capacity gz cfg ⟨out, wrapInt t, wrapInt p⟩ l =
          some ⟨out ++ writeLine capacity gz l, wrapInt t, wrapInt p⟩ := by
        simp [driverStep, hh]
      simp only [driverLoop, hstep]
      rw [ih (out ++ writeLine capacity gz l) t p hrest]
      simp [isWritten, isVariantLine, isPassedVariant, hh, List.filter_cons, List.countP_cons,
        writeLines]
    · have hh' : isHeaderLine l = false := by simpa using hh
      have hl := hret l (List.mem_cons_self _ _) hh'
      cases hp : passesDepthFilter cfg l with
      | none => exact absurd hp hl
      | some b =>
        cases b with
        | true =>
          have hstep : driverStep capacity gz cfg ⟨out, wrapInt t, wrapInt p⟩ l =
              some ⟨out ++ writeLine capacity gz l, wrapInt (t + 1), wrapInt (p + 1)⟩ := by
            simp [driverStep, hh', hp, wrapInt_wrapInt_add_one]
          simp only [driverLoop, hstep]
          rw [ih (out ++ writeLine capacity gz l) (t + 1) (p + 1) hrest]
          simp [isWritten, isVariantLine, isPassedVariant, hh', hp, List.filter_cons,
            List.countP_cons, writeLines]
          constructor <;> congr 1 <;> omega
        | false =>
          have hstep : driverStep capacity gz cfg ⟨out, wrapInt t, wrapInt p⟩ l =
              some ⟨out, wrapInt (t + 1), wrapInt p⟩ := by
            simp [driverStep, hh', hp, wrapInt_wrapInt_add_one]
          simp only [driverLoop, hstep]
          rw [ih out (t + 1) p hrest]
          simp [isWritten, isVariantLine, isPassedVariant, hh', hp, List.filter_cons,
            List.countP_cons]
          congr 1; omega

/-- When `passesDepthFilter` returns on every variant line, the loop completes: every header line
and every passing variant line, in input order, has gone through the writer, and the counters
hold the numbers of variant lines and of passing variant lines, as an `int` holds them. -/
theorem filterVCF_spec (capacity : Nat) (gz : Bool) (cfg : Config) (lines : List Str)
    (hret : ∀ l ∈ lines, isHeaderLine l = false → passesDepthFilter cfg l ≠ none) :
    filterVCF capacity gz cfg lines =
      some { output := writeLines capacity gz (lines.filter (isWritten cfg)),
             totalVariants := wrapInt (lines.countP isVariantLine : Nat),
             passedVariants := wrapInt (lines.countP (isPassedVariant cfg) : Nat) } := by
  have h := driverLoop_spec capacity gz cfg lines [] 0 0 hret
  have w0 : wrapInt 0 = 0 := by decide
  rw [w0] at h
  simpa [filterVCF] using h

theorem writeLines_plain (capacity : Nat) (lines : List Str) :
    writeLines capacity false lines = textOf lines := by
  induction lines with
  | nil => rfl
  | cons l rest ih => simp [writeLines, writeLine, textOf, ih]

theorem driverLoop_returns_on_lines (capacity : Nat) (gz : Bool) (cfg : Config)
    (lines : List Str) (st st' : DriverState)
    (h : driverLoop capacity gz cfg st lines = some st') :
    ∀ l ∈ lines, isHeaderLine l = false → passesDepthFilter cfg l ≠ none := by
  induction lines generalizing st with
  | nil => simp
  | cons l rest ih =>
    intro x hx hh
    simp only [driverLoop] at h
    cases hstep : driverStep capacity gz cfg st l with
    | none => rw [hstep] at h; exact absurd h (by simp)
    | some s1 =>
      rw [hstep] at h
      rcases List.mem_cons.mp hx with rfl | hx
      · intro hp
        simp [driverStep, hh, hp] at hstep
      · exact ih s1 h x hx hh

theorem filterVCF_returns_on_lines (capacity : Nat) (gz : Bool) (cfg : Config)
    (lines : List Str) (st : DriverState) (h : filterVCF capacity gz cfg lines = some st) :
    ∀ l ∈ lines, isHeaderLine l = false → passesDepthFilter cfg l ≠ none :=
  driverLoop_returns_on_lines capacity gz cfg lines _ st h

theorem filterVCF_output_eq (capacity : Nat) (gz : Bool) (cfg : Config) (lines : List Str)
    (st : DriverState) (h : filterVCF capacity gz cfg lines = some st) :
    st.output = writeLines capacity gz (lines.filter (isWritten cfg)) := by
  have hs := filterVCF_spec capacity gz cfg lines
    (filterVCF_returns_on_lines capacity gz cfg lines st h)
  rw [h] at hs
  rw [Option.some.inj hs]

/-- With plain output, when `passesDepthFilter` returns on every variant line, the output file
holds the input lines without the variant lines that the filter rejects, in input order; every
header line of the input is among them. -/
theorem filterVCF_plain_output (capacity : Nat) (cfg : Config) (lines : List Str)
    (hret : ∀ l ∈ lines, isHeaderLine l = false → passesDepthFilter cfg l ≠ none) :
    ∃ st, filterVCF capacity false cfg lines = some st ∧
      st.output = textOf
        (lines.filter (fun l => !(isVariantLine l && passesDepthFilter cfg l == some false))) ∧
      (lines.filter (fun l => !(isVariantLine l && passesDepthFilter cfg l == some false))).filter
        isHeaderLine = lines.filter isHeaderLine := by
  have hfil : lines.filter (isWritten cfg) =
      lines.filter (fun l => !(isVariantLine l && passesDepthFilter cfg l == some false)) := by
    apply List.filter_congr
    intro l hl
    simp only [isWritten, isVariantLine]
    by_cases hh : isHeaderLine l = true
    · simp [hh]
    · have hh' : isHeaderLine l = false := by simpa using hh
      have hn := hret l hl hh'
      cases hp : passesDepthFilter cfg l with
      | none => exact absurd hp hn
      | some b => cases b <;> simp [hh']
  refine ⟨_, filterVCF_spec capacity false cfg lines hret, ?_, ?_⟩
  · simp only [writeLines_plain, hfil]
  · rw [← hfil]
    simp only [List.filter_filter]
    apply List.filter_congr
    intro l _
    simp only [isWritten]
    cases isHeaderLine l <;> simp

/-- Header lines do not count: two inputs with the same variant lines in the same order end
with the same counters (when `passesDepthFilter` returns on each of those lines). -/
theorem filterVCF_counters_ignore_headers (capacity : Nat) (gz : Bool) (cfg : Config)
    (lines lines' : List Str)
    (hsame : lines.filter isVariantLine = lines'.filter isVariantLine)
    (hret : ∀ l ∈ lines, isHeaderLine l = false → passesDepthFilter cfg l ≠ none) :
    ∃ st st', filterVCF capacity gz cfg lines = some st ∧
      filterVCF capacity gz cfg lines' = some st' ∧
      st.totalVariants = st'.totalVariants ∧ st.passedVariants = st'.passedVariants := by
  have hret' : ∀ l ∈ lines', isHeaderLine l = false → passesDepthFilter cfg l ≠ none := by
    intro l hl hh
    have hm : l ∈ lines'.filter isVariantLine := by
      simp [List.mem_filter, hl, isVariantLine, hh]
    rw [← hsame] at hm
    exact hret l (List.mem_filter.mp hm).1 hh
  have hT : ∀ ls : List Str, ls.countP isVariantLine = (ls.filter isVariantLine).length :=
    fun ls => List.countP_eq_length_filter _ _
  have hP : ∀ ls : List Str,
      ls.countP (isPassedVariant cfg) = (ls.filter isVariantLine).countP (isPassedVariant cfg) := by
    intro ls
    rw [List.countP_filter]
    apply List.countP_congr
    intro l _
    simp only [isPassedVariant, isVariantLine]
    cases isHeaderLine l <;> simp
  refine ⟨_, _, filterVCF_spec capacity gz cfg lines hret,
    filterVCF_spec capacity gz cfg lines' hret', ?_, ?_⟩
  · simp only [hT, hsame]
  · simp only [hP lines, hP lines', hsame]

/-- A run of the driver on lines that are all header lines or passing variant lines completes,
passes every line to the writer, and ends with `passedVariants = totalVariants`. -/
theorem filterVCF_on_written (capacity : Nat) (gz : Bool) (cfg : Config) (out : List Str)
    (hw : ∀ l ∈ out, isWritten cfg l = true) :
    ∃ st, filterVCF capacity gz cfg out = some st ∧ st.output = writeLines capacity gz out ∧
      st.passedVariants = st.totalVariants := by
  have hret : ∀ l ∈ out, isHeaderLine l = false → passesDepthFilter cfg l ≠ none := by
    intro l hl hh hp
    have := hw l hl
    simp [isWritten, hh, hp] at this
  have hc : out.countP (isPassedVariant cfg) = out.countP isVariantLine := by
    apply List.countP_congr
    intro l hl
    have := hw l hl
    simp only [isWritten, Bool.or_eq_true] at this
    simp only [isPassedVariant, isVariantLine]
    rcases this with h | h
    · simp [h]
    · simp [h]
  refine ⟨_, filterVCF_spec capacity gz cfg out hret, ?_, ?_⟩
  · simp only [List.filter_eq_self.mpr hw]
  · simp only [hc]

/-- When the run under the wider range completes, so does the run under the narrower range, and
the lines it passes to the writer are a subsequence of those of the wider run. -/
theorem filterVCF_widen (capacity : Nat) (gz : Bool) (narrow wide : Config)
    (hmin : wide.minDepth ≤ narrow.minDepth) (hmax : narrow.maxDepth ≤ wide.maxDepth)
    (lines : List Str) (stW : DriverState)
    (h : filterVCF capacity gz wide lines = some stW) :
    ∃ stN, filterVCF capacity gz narrow lines = some stN ∧
      stN.output = writeLines capacity gz (lines.filter (isWritten narrow)) ∧
      stW.output = writeLines capacity gz (lines.filter (isWritten wide)) ∧
      (lines.filter (isWritten narrow)).Sublist (lines.filter (isWritten wide)) := by
  have hretW := filterVCF_returns_on_lines capacity gz wide lines stW h
  have hretN : ∀ l ∈ lines, isHeaderLine l = false → passesDepthFilter narrow l ≠ none :=
    fun l hl hh => (passesDepthFilter_widen narrow wide hmin hmax l).2 (hretW l hl hh)
  refine ⟨_, filterVCF_spec capacity gz narrow lines hretN, rfl,
    filterVCF_output_eq capacity gz wide lines stW h, ?_⟩
  apply List.monotone_filter_right
  intro l hl
  simp only [isWritten, Bool.or_eq_true, beq_iff_eq] at hl ⊢
  rcases hl with hl | hl
  · exact Or.inl hl
  · exact Or.inr ((passesDepthFilter_widen narrow wide hmin hmax l).1 hl)

theorem plainOutputAtStop_eq (cfg : Config) (lines : List Str)
    (hret : ∀ l ∈ lines, isHeaderLine l = false → passesDepthFilter cfg l ≠ none) :
    plainOutputAtStop cfg lines = textOf (lines.filter (isWritten cfg)) := by
  induction lines with
  | nil => rfl
  | cons x rest ih =>
    have ih' := ih (fun l hl => hret l (List.mem_cons_of_mem _ hl))
    unfold plainOutputAtStop
    by_cases hh : isHeaderLine x = true
    · rw [if_pos hh, ih']
      simp [List.filter_cons, isWritten, hh, writeLine, textOf]
    · have hh' : isHeaderLine x = false := by simpa using hh
      rw [if_neg hh]
      cases hp : passesDepthFilter cfg x with
      | none => exact absurd hp (hret x (List.mem_cons_self _ _) hh')
      | some b =>
        cases b with
        | true => simp [List.filter_cons, isWritten, hp, ih', writeLine, textOf]
        | false => simp [List.filter_cons, isWritten, hp, hh', ih']

/-! ## Facts about `readLine` and the writers -/

theorem byteLength_append (a b : Str) : byteLength (a ++ b) = byteLength a + byteLength b := by
  induction a with
  | nil => simp [byteLength]
  | cons c cs ih => simp [byteLength, ih]; omega

theorem length_le_byteLength (s : Str) : s.length ≤ byteLength s := by
  induction s with
  | nil => simp [byteLength]
  | cons c cs ih =>
    have := c.utf8Size_pos
    simp only [byteLength, List.length_cons]
    omega

theorem byteLength_replicate_ascii (n : Nat) (c : Char) (hc : c.utf8Size = 1) :
    byteLength (List.replicate n c) = n := by
  induction n with
  | zero => rfl
  | succ n ih => simp only [List.replicate_succ, byteLength, ih, hc]; omega

theorem gzgetsTake_line (l rest : Str) (room : Nat) (hnl : '\n' ∉ l)
    (hroom : byteLength l + 1 ≤ room) :
    gzgetsTake room (l ++ '\n' :: rest) = some (l ++ ['\n'], rest) := by
  induction l generalizing room with
  | nil =>
    have h0 : room ≠ 0 := by simp [byteLength] at hroom; omega
    simp [gzgetsTake, h0]
  | cons c cs ih =>
    have hc : c ≠ '\n' := fun e => hnl (by simp [e])
    have hcs : '\n' ∉ cs := fun e => hnl (List.mem_cons_of_mem _ e)
    simp only [byteLength] at hroom
    have h0 : room ≠ 0 := by omega
    have hfit : c.utf8Size ≤ room := by omega
    have hr : byteLength cs + 1 ≤ room - c.utf8Size := by omega
    simp [gzgetsTake, h0, hc, hfit, ih (room - c.utf8Size) hcs hr]

theorem gzgetsTake_full (n : Nat) (l rest : Str) (hnl : '\n' ∉ l) (hlen : byteLength l = n) :
    gzgetsTake n (l ++ rest) = some (l, rest) := by
  induction l generalizing n with
  | nil =>
    simp only [byteLength] at hlen
    subst hlen
    cases rest <;> simp [gzgetsTake]
  | cons c cs ih =>
    have hc : c ≠ '\n' := fun e => hnl (by simp [e])
    have hcs : '\n' ∉ cs := fun e => hnl (List.mem_cons_of_mem _ e)
    have hpos := c.utf8Size_pos
    simp only [byteLength] at hlen
    have h0 : n ≠ 0 := by omega
    have hfit : c.utf8Size ≤ n := by omega
    have hr : byteLength cs = n - c.utf8Size := by omega
    simp [gzgetsTake, h0, hc, hfit, ih (n - c.utf8Size) hcs hr]

theorem cString_of_no_nul (s : Str) (h : '\x00' ∉ s) : cString s = s := by
  unfold cString
  rw [List.takeWhile_eq_self_iff]
  intro c hc
  simp only [decide_eq_true_eq]
  intro e
  exact h (e ▸ hc)

theorem readLine_gz_line (l rest : Str) (hnl : '\n' ∉ l) (hnul : '\x00' ∉ l)
    (hlen : byteLength l + 1 ≤ 65535) :
    readLine true (l ++ '\n' :: rest) = ReadResult.text l rest := by
  have htake := gzgetsTake_line l rest 65535 hnl hlen
  have hnul' : '\x00' ∉ l ++ ['\n'] := by
    intro e
    rcases List.mem_append.mp e with e | e
    · exact hnul e
    · simp at e
  have hcs : cString (l ++ ['\n']) = l ++ ['\n'] := cString_of_no_nul _ hnul'
  have hne : ¬ (l ++ ['\n'] = []) := by simp
  simp only [readLine, gzgets, if_true, Nat.add_one_sub_one, htake, if_neg hne, hcs]
  simp

theorem readLine_gz_full (l rest : Str) (hnl : '\n' ∉ l) (hnul : '\x00' ∉ l)
    (hne : l ≠ []) (hlen : byteLength l = 65535) :
    readLine true (l ++ rest) = ReadResult.text l rest := by
  have htake := gzgetsTake_full 65535 l rest hnl hlen
  have hcs : cString l = l := cString_of_no_nul _ hnul
  have hlast : ¬ (l.getLast? = some '\n') := by
    intro e
    exact hnl (List.mem_of_getLast?_eq_some e)
  simp only [readLine, gzgets, if_true, Nat.add_one_sub_one, htake, if_neg hne, hcs,
    if_neg hlast]

theorem readLine_plain_line (l rest : Str) (hnl : '\n' ∉ l) :
    readLine false (l ++ '\n' :: rest) = ReadResult.text l rest := by
  have hp : ∀ a ∈ l, decide (a ≠ '\n') = true := by
    intro a ha
    simp only [decide_eq_true_eq]
    intro e
    exact hnl (e ▸ ha)
  have hne : ¬ (l ++ '\n' :: rest = []) := by simp
  simp only [readLine, getline, Bool.false_eq_true, if_false, if_neg hne,
    List.takeWhile_append_of_pos hp, List.dropWhile_append_of_pos hp]
  simp [List.takeWhile_cons, List.dropWhile_cons]

theorem readLine_nil (useGzip : Bool) : readLine useGzip [] = ReadResult.endOfFile := by
  cases useGzip <;> rfl

theorem gzgetsTake_length (room : Nat) (stream buffer rest : Str)
    (h : gzgetsTake room stream = some (buffer, rest)) :
    buffer.length + rest.length = stream.length := by
  induction stream generalizing room buffer rest with
  | nil =>
    simp only [gzgetsTake, Option.some.injEq, Prod.mk.injEq] at h
    rw [← h.1, ← h.2]; rfl
  | cons c cs ih =>
    simp only [gzgetsTake] at h
    split_ifs at h with h0 hc hfit
    · simp only [Option.some.injEq, Prod.mk.injEq] at h
      rw [← h.1, ← h.2]; simp
    · simp only [Option.some.injEq, Prod.mk.injEq] at h
      rw [← h.1, ← h.2]; simp; omega
    · cases hrec : gzgetsTake (room - c.utf8Size) cs with
      | none => rw [hrec] at h; exact absurd h (by simp)
      | some p =>
        obtain ⟨b, r⟩ := p
        rw [hrec] at h
        simp only [Option.some.injEq, Prod.mk.injEq] at h
        have := ih (room - c.utf8Size) b r hrec
        rw [← h.1, ← h.2]
        simp only [List.length_cons]
        omega

/-- A successful `readLine` leaves less to read than there was. -/
theorem readLine_consumes (useGzip : Bool) (stream line rest : Str)
    (h : readLine useGzip stream = ReadResult.text line rest) :
    rest.length < stream.length := by
  cases useGzip with
  | true =>
    simp only [readLine, gzgets, if_true] at h
    cases htake : gzgetsTake (65536 - 1) stream with
    | none => rw [htake] at h; exact absurd h (by simp)
    | some p =>
      obtain ⟨buffer, rest'⟩ := p
      rw [htake] at h
      simp only at h
      by_cases hb : buffer = []
      · rw [if_pos hb] at h; exact absurd h (by simp)
      · rw [if_neg hb] at h
        simp only [ReadResult.text.injEq] at h
        have hlen := gzgetsTake_length _ _ _ _ htake
        have hpos : 0 < buffer.length := List.length_pos.mpr hb
        rw [← h.2]
        omega
  | false =>
    simp only [readLine, getline, Bool.false_eq_true, if_false] at h
    by_cases hne : stream = []
    · rw [if_pos hne] at h; exact absurd h (by simp)
    · rw [if_neg hne] at h
      simp only [ReadResult.text.injEq] at h
      rw [← h.2]
      have h1 : (stream.dropWhile (fun c => decide (c ≠ '\n'))).length ≤ stream.length :=
        (List.dropWhile_sublist _).length_le
      cases hd : stream.dropWhile (fun c => decide (c ≠ '\n')) with
      | nil =>
        simp only [List.tail_nil, List.length_nil]
        exact List.length_pos.mpr hne
      | cons a as =>
        rw [hd] at h1
        simp only [List.tail_cons, List.length_cons] at h1 ⊢
        omega

/-- The loop over `readLine` needs no more calls than the stream has characters, plus one: any
two amounts of fuel that large deliver the same lines. -/
theorem readLines_fuel (useGzip : Bool) (fuel fuel' : Nat) (stream : Str)
    (h : stream.length + 1 ≤ fuel) (h' : stream.length + 1 ≤ fuel') :
    readLines useGzip fuel stream = readLines useGzip fuel' stream := by
  induction fuel generalizing fuel' stream with
  | zero => omega
  | succ n ih =>
    obtain ⟨m, rfl⟩ : ∃ m, fuel' = m + 1 := ⟨fuel' - 1, by omega⟩
    simp only [readLines]
    cases hr : readLine useGzip stream with
    | endOfFile => rfl
    | insideCharacter => rfl
    | text line rest =>
      have hc := readLine_consumes useGzip stream line rest hr
      simp only
      rw [ih m rest (by omega) (by omega)]

theorem readLines_cons (useGzip : Bool) (fuel : Nat) (stream line rest : Str)
    (lines : List Str) (h : readLine useGzip stream = ReadResult.text line rest)
    (hrest : readLines useGzip fuel rest = some lines) :
    readLines useGzip (fuel + 1) stream = some (line :: lines) := by
  simp only [readLines, h, hrest]

theorem writeLine_gz_of_fits (capacity : Nat) (l : Str) (hnul : '\x00' ∉ l)
    (hfit : byteLength l + 1 ≤ capacity) : writeLine capacity true l = l ++ ['\n'] := by
  have hlen : byteLength (l ++ ['\n']) ≤ capacity := by
    rw [byteLength_append]
    exact hfit
  simp only [writeLine, if_true, cString_of_no_nul l hnul, if_pos hlen]

theorem writeLines_gz_eq_text (capacity : Nat) (lines : List Str)
    (h : ∀ l ∈ lines, '\x00' ∉ l ∧ byteLength l + 1 ≤ capacity) :
    writeLines capacity true lines = textOf lines := by
  induction lines with
  | nil => rfl
  | cons l rest ih =>
    have hl := h l (List.mem_cons_self _ _)
    simp only [writeLines, textOf]
    rw [writeLine_gz_of_fits capacity l hl.1 hl.2,
      ih (fun x hx => h x (List.mem_cons_of_mem _ hx))]
    simp

theorem readLines_textOf (useGzip : Bool) (lines : List Str) (fuel : Nat)
    (hread : ∀ l ∈ lines, ∀ rest, readLine useGzip (l ++ '\n' :: rest) = ReadResult.text l rest)
    (hfuel : lines.length + 1 ≤ fuel) :
    readLines useGzip fuel (textOf lines) = some lines := by
  induction lines generalizing fuel with
  | nil =>
    obtain ⟨m, rfl⟩ : ∃ m, fuel = m + 1 := ⟨fuel - 1, by simp at hfuel; omega⟩
    simp [readLines, textOf, readLine_nil]
  | cons l rest ih =>
    obtain ⟨m, rfl⟩ : ∃ m, fuel = m + 1 := ⟨fuel - 1, by simp at hfuel; omega⟩
    have hm : rest.length + 1 ≤ m := by simp at hfuel; omega
    exact readLines_cons useGzip m _ l _ rest (hread l (List.mem_cons_self _ _) _)
      (ih m (fun x hx => hread x (List.mem_cons_of_mem _ hx)) hm)

theorem textOf_length (lines : List Str) : lines.length ≤ (textOf lines).length := by
  induction lines with
  | nil => simp [textOf]
  | cons l rest ih =>
    simp only [textOf, List.length_append, List.length_cons]
    omega

/-- A file that holds lines free of newlines is read back by the plain reader as those lines. -/
theorem readAllLines_plain_textOf (lines : List Str) (h : ∀ l ∈ lines, '\n' ∉ l) :
    readAllLines false (textOf lines) = some lines := by
  have hfuel := textOf_length lines
  exact readLines_textOf false lines _
    (fun l hl rest => readLine_plain_line l rest (h l hl)) (by omega)

/-- The round trip holds for lines the compressed branches handle as the plain ones do. For
lines free of newline and NUL characters whose bytes, with the newline, fit both one
`gzprintf` call and the 65535 bytes `readLine` takes into its buffer: the compressed writer
writes what the plain writer writes, and `readLine` gives the lines back in compressed mode as
in plain mode. -/
theorem round_trip_of_short_lines (capacity : Nat) (lines : List Str)
    (h : ∀ l ∈ lines, '\n' ∉ l ∧ '\x00' ∉ l ∧ byteLength l + 1 ≤ capacity ∧
      byteLength l + 1 ≤ 65535) :
    writeLines capacity true lines = writeLines capacity false lines ∧
    readAllLines true (writeLines capacity true lines) = some lines ∧
    readAllLines false (writeLines capacity true lines) = some lines := by
  have hw := writeLines_gz_eq_text capacity lines (fun l hl => ⟨(h l hl).2.1, (h l hl).2.2.1⟩)
  have hfuel := textOf_length lines
  refine ⟨by rw [hw, writeLines_plain], ?_, ?_⟩
  · rw [hw, readAllLines]
    exact readLines_textOf true lines _
      (fun l hl rest => readLine_gz_line l rest (h l hl).1 (h l hl).2.1 (h l hl).2.2.2)
      (by omega)
  · rw [hw]
    exact readAllLines_plain_textOf lines (fun l hl => (h l hl).1)

/-- With plain output filtering is idempotent: when the first run completes on lines free of
newlines, the plain reader reads from its output file the lines that went through the writer,
and a second run on them, with the same configuration, completes, writes the same file and
ends with `passedVariants = totalVariants`. -/
theorem filterVCF_plain_idempotent (capacity : Nat) (cfg : Config) (lines : List Str)
    (st : DriverState) (hnl : ∀ l ∈ lines, '\n' ∉ l)
    (h : filterVCF capacity false cfg lines = some st) :
    readAllLines false st.output = some (lines.filter (isWritten cfg)) ∧
    ∃ st', filterVCF capacity false cfg (lines.filter (isWritten cfg)) = some st' ∧
      st'.output = st.output ∧ st'.passedVariants = st'.totalVariants := by
  have hout := filterVCF_output_eq capacity false cfg lines st h
  constructor
  · rw [hout, writeLines_plain]
    exact readAllLines_plain_textOf _ (fun l hl => hnl l (List.mem_filter.mp hl).1)
  · obtain ⟨st', h1, h2, h3⟩ := filterVCF_on_written capacity false cfg
      (lines.filter (isWritten cfg)) (fun l hl => (List.mem_filter.mp hl).2)
    exact ⟨st', h1, by rw [h2, hout], h3⟩

/-! ## The properties claimed of the program -/

/-- C1, the code at the failing input. The record has 11 fields and its sample column at index 9
is empty, so `split` gives that column no token at all and the read `split(sampleData, ':')[0]`
is outside the vector: under every configuration `passesDepthFilter` returns neither true nor
false. -/
theorem C1_empty_sample_column_read_out_of_bounds (cfg : Config) :
    (split recordEmptyFirstSample '\t').length = 11 ∧
    split ((split recordEmptyFirstSample '\t').getD 9 []) ':' = [] ∧
    passesDepthFilter cfg recordEmptyFirstSample = none :=
  ⟨by decide, by decide, rfl⟩

/-- C2 as stated fails: with `minDepth = -1` and `maxDepth = 5`, the 10-field record with FORMAT
`GT:DP` and the single sample `0/1:-1` has a genotyped sample whose depth equals `minDepth`,
and `passesDepthFilter` returns false, because `-1` is the value `extractDepth` uses for
"no depth". -/
theorem C2_counterexample_depth_equal_to_sentinel :
    (-1 : Int) ≤ 5 ∧
    10 ≤ (split recordDepthMinusOne '\t').length ∧
    "DP".toList ∈ split (formatOf recordDepthMinusOne) ':' ∧
    (∀ s ∈ samplesOf recordDepthMinusOne, isMissingGenotype (genotypeOf s) = false →
      extractDepth (formatOf recordDepthMinusOne) s = some (-1)) ∧
    passesDepthFilter ⟨-1, 5⟩ recordDepthMinusOne = some false := by
  decide

/-- C2, amended. For every configuration with `minDepth ≤ maxDepth` and every record with at
least 10 fields whose FORMAT contains DP and none of whose sample columns is empty, if every
genotyped sample has a depth other than `-1` that equals `minDepth` or equals `maxDepth`, then
`passesDepthFilter` returns true: both bounds are inclusive. -/
theorem C2_boundary_depths_pass (cfg : Config) (line : Str)
    (hle : cfg.minDepth ≤ cfg.maxDepth)
    (hlen : 10 ≤ (split line '\t').length)
    (hdp : "DP".toList ∈ split (formatOf line) ':')
    (hne : ∀ s ∈ samplesOf line, s ≠ [])
    (hdepth : ∀ s ∈ samplesOf line, isMissingGenotype (genotypeOf s) = false →
      ∃ d, extractDepth (formatOf line) s = some d ∧ d ≠ -1 ∧
        (d = cfg.minDepth ∨ d = cfg.maxDepth)) :
    passesDepthFilter cfg line = some true := by
  have _ := hdp
  rw [(passesDepthFilter_characterised cfg line hne).2]
  refine ⟨hlen, ?_⟩
  intro s hs
  by_cases hm : isMissingGenotype (genotypeOf s) = true
  · exact Or.inl hm
  · obtain ⟨d, hd, hd1, hd2⟩ := hdepth s hs (by simpa using hm)
    refine Or.inr ⟨d, hd, hd1, ?_⟩
    rcases hd2 with rfl | rfl
    · exact ⟨le_refl _, hle⟩
    · exact ⟨hle, le_refl _⟩

/-- C2, amended, at a concrete record: bounds 10 and 20, samples `0/1:10`, `1/1:20`, `./.:3`. -/
theorem C2_boundary_depths_pass_witness :
    passesDepthFilter ⟨10, 20⟩ recordBoundaryDepths = some true :=
  C2_boundary_depths_pass ⟨10, 20⟩ recordBoundaryDepths (by decide) (by decide) (by decide)
    (by decide)
    (by
      have hs : samplesOf recordBoundaryDepths =
          ["0/1:10".toList, "1/1:20".toList, "./.:3".toList] := by decide
      rw [hs]
      intro s hmem hmiss
      simp only [List.mem_cons, List.mem_singleton, List.not_mem_nil, or_false] at hmem
      rcases hmem with rfl | rfl | rfl
      · exact ⟨10, by decide, by decide, Or.inl rfl⟩
      · exact ⟨20, by decide, by decide, Or.inr rfl⟩
      · exact absurd hmiss (by decide))

/-- C3, the code at the failing input. Every sample column of the record has a missing genotype
(the text before the first colon is empty for the first, `./.` for the second), and under
every configuration `passesDepthFilter` does not return true: the empty column makes it read
`split(sampleData, ':')[0]` outside the vector. -/
theorem C3_all_missing_with_empty_column (cfg : Config) :
    10 ≤ (split recordAllMissing '\t').length ∧
    (∀ s ∈ samplesOf recordAllMissing, isMissingGenotype (genotypeOf s) = true) ∧
    passesDepthFilter cfg recordAllMissing = none :=
  ⟨by decide, by decide, rfl⟩

/-- C4 as stated fails: under the default configuration the 10-field record with FORMAT `GT`
and sample `0/1` is rejected, and the driver run on that one line, with plain or with
compressed output, counts one variant, passes none and writes nothing. -/
theorem C4_counterexample_record_without_depth :
    10 ≤ (split recordWithoutDepth '\t').length ∧
    passesDepthFilter defaultConfig recordWithoutDepth = some false ∧
    filterVCF 8191 false defaultConfig [recordWithoutDepth] =
      some { output := [], totalVariants := 1, passedVariants := 0 } ∧
    filterVCF 8191 true defaultConfig [recordWithoutDepth] =
      some { output := [], totalVariants := 1, passedVariants := 0 } := by
  decide

/-- C4, amended. With the default configuration (`minDepth = 0`, `maxDepth = INT_MAX`),
`passesDepthFilter` returns true for every record with at least 10 fields in which no sample
column is empty and every sample with a non-missing genotype has a depth that `extractDepth`
finds and that is not negative. For every input made only of header lines and such records,
whatever the output mode, the driver loop completes, drops no line (every line, in order, goes
through the writer) and ends with `passedVariants = totalVariants`; with plain output the
output file then holds exactly the input lines. -/
theorem C4_default_config_keeps_readable_records :
    (∀ line, HasReadableDepths line → passesDepthFilter defaultConfig line = some true) ∧
    (∀ (capacity : Nat) (outputIsGzipped : Bool) (lines : List Str),
      (∀ l ∈ lines, isHeaderLine l = true ∨ HasReadableDepths l) →
      ∃ st, filterVCF capacity outputIsGzipped defaultConfig lines = some st ∧
        st.passedVariants = st.totalVariants ∧
        st.output = writeLines capacity outputIsGzipped lines ∧
        (outputIsGzipped = false → st.output = textOf lines)) := by
  have hpass : ∀ line, HasReadableDepths line →
      passesDepthFilter defaultConfig line = some true := by
    intro line ⟨hlen, hs⟩
    rw [(passesDepthFilter_characterised defaultConfig line (fun s m => (hs s m).1)).2]
    refine ⟨hlen, ?_⟩
    intro s m
    rcases (hs s m).2 with hm | ⟨d, hd, h0⟩
    · exact Or.inl hm
    · refine Or.inr ⟨d, hd, by omega, h0, ?_⟩
      exact (extractDepth_range _ _ _ hd).2
  refine ⟨hpass, ?_⟩
  intro capacity gz lines hl
  have hw : ∀ l ∈ lines, isWritten defaultConfig l = true := by
    intro l m
    rcases hl l m with h | h
    · simp [isWritten, h]
    · simp [isWritten, hpass l h]
  obtain ⟨st, hst, hout, hcnt⟩ := filterVCF_on_written capacity gz defaultConfig lines hw
  refine ⟨st, hst, hcnt, hout, ?_⟩
  intro hgz
  rw [hout, hgz, writeLines_plain]

/-- C4, amended, at a concrete input: a header line, a record with depth 30, an empty line,
written to a plain output file. -/
theorem C4_default_config_keeps_readable_records_witness :
    passesDepthFilter defaultConfig recordDepthThirty = some true ∧
    ∃ st, filterVCF 8191 false defaultConfig
        ["##fileformat=VCFv4.2".toList, recordDepthThirty, []] = some st ∧
      st.passedVariants = st.totalVariants ∧
      st.output = textOf ["##fileformat=VCFv4.2".toList, recordDepthThirty, []] := by
  have hr : HasReadableDepths recordDepthThirty := by
    refine ⟨by decide, ?_⟩
    have hs : samplesOf recordDepthThirty = ["0/1:30".toList] := by decide
    rw [hs]
    intro s hmem
    simp only [List.mem_singleton] at hmem
    subst hmem
    exact ⟨by decide, Or.inr ⟨30, by decide, by decide⟩⟩
  obtain ⟨st, h1, h2, _, h4⟩ := C4_default_config_keeps_readable_records.2 8191 false
    ["##fileformat=VCFv4.2".toList, recordDepthThirty, []]
    (by
      intro l hmem
      simp only [List.mem_cons, List.mem_singleton, List.not_mem_nil, or_false] at hmem
      rcases hmem with rfl | rfl | rfl
      · exact Or.inl (by decide)
      · exact Or.inr hr
      · exact Or.inl (by decide))
  exact ⟨C4_default_config_keeps_readable_records.1 recordDepthThirty hr, st, h1, h2, h4 rfl⟩

/-- C5, the code at the failing input. The FORMAT column of the record has no token `DP` and
its second sample column `0/1` has a non-missing genotype, and under every configuration
`passesDepthFilter` does not return false: the empty sample column before it makes it read
`split(sampleData, ':')[0]` outside the vector. -/
theorem C5_no_depth_key_with_empty_column (cfg : Config) :
    "DP".toList ∉ split (formatOf recordNoDepthKey) ':' ∧
    (∃ s ∈ samplesOf recordNoDepthKey, isMissingGenotype (genotypeOf s) = false) ∧
    passesDepthFilter cfg recordNoDepthKey = none :=
  ⟨by decide, by decide, rfl⟩

/-- C6. With `minDepth = 10` and `maxDepth = 20`, on a 10-field record with a single sample
column, whatever its eight leading columns are: FORMAT `GT:DP` with sample `0/1:15` passes;
FORMAT `GT:DP` with sample `0/1:5` fails; FORMAT `GT:DP` with sample `./.:5` passes; FORMAT
`GT` with sample `0/1` fails. -/
theorem C6_concrete_scenario (pre : Str) (hpre : pre.count '\t' = 7) :
    passesDepthFilter ⟨10, 20⟩ (pre ++ "\tGT:DP\t0/1:15".toList) = some true ∧
    passesDepthFilter ⟨10, 20⟩ (pre ++ "\tGT:DP\t0/1:5".toList) = some false ∧
    passesDepthFilter ⟨10, 20⟩ (pre ++ "\tGT:DP\t./.:5".toList) = some true ∧
    passesDepthFilter ⟨10, 20⟩ (pre ++ "\tGT\t0/1".toList) = some false := by
  refine ⟨?_, ?_, ?_, ?_⟩
  · exact (passesDepthFilter_after_eight_columns _ pre "GT:DP\t0/1:15".toList hpre).trans
      (by decide)
  · exact (passesDepthFilter_after_eight_columns _ pre "GT:DP\t0/1:5".toList hpre).trans
      (by decide)
  · exact (passesDepthFilter_after_eight_columns _ pre "GT:DP\t./.:5".toList hpre).trans
      (by decide)
  · exact (passesDepthFilter_after_eight_columns _ pre "GT\t0/1".toList hpre).trans
      (by decide)

/-- C6 at the leading columns `chr1 100 . A G 50 PASS .`. -/
theorem C6_concrete_scenario_witness :
    passesDepthFilter ⟨10, 20⟩ "chr1\t100\t.\tA\tG\t50\tPASS\t.\tGT:DP\t0/1:15".toList = some true ∧
    passesDepthFilter ⟨10, 20⟩ "chr1\t100\t.\tA\tG\t50\tPASS\t.\tGT:DP\t0/1:5".toList = some false ∧
    passesDepthFilter ⟨10, 20⟩ "chr1\t100\t.\tA\tG\t50\tPASS\t.\tGT:DP\t./.:5".toList = some true ∧
    passesDepthFilter ⟨10, 20⟩ "chr1\t100\t.\tA\tG\t50\tPASS\t.\tGT\t0/1".toList = some false :=
  C6_concrete_scenario "chr1\t100\t.\tA\tG\t50\tPASS\t.".toList (by decide)

/-- C7, the code at the failing input. The input is a record whose first sample column is empty
followed by a header line. Whatever the output mode, the driver loop does not complete:
`passesDepthFilter` reads outside a vector on the record, so the header line after it is never
written. -/
theorem C7_driver_stops_before_later_lines (capacity : Nat) (outputIsGzipped : Bool)
    (cfg : Config) :
    isHeaderLine "#CHROM\tPOS".toList = true ∧
    filterVCF capacity outputIsGzipped cfg [recordEmptyFirstSample, "#CHROM\tPOS".toList] =
      none :=
  ⟨by decide, rfl⟩

/-- C8, the code at the failing input. The input has a header line, a record whose first sample
column is empty, and a second header line. Whatever the output mode, the driver loop does not
complete, so the second header line is never written. -/
theorem C8_header_after_empty_sample_column_not_written (capacity : Nat)
    (outputIsGzipped : Bool) (cfg : Config) :
    isHeaderLine "##source=caller".toList = true ∧
    isHeaderLine ([] : Str) = true ∧
    filterVCF capacity outputIsGzipped cfg ["##source=caller".toList, recordAllMissing, []] =
      none :=
  ⟨by decide, by decide, rfl⟩

/-- C9 as stated fails: on an input of 2147483648 variant lines (each the one-field line `x`,
which the filter rejects) the counter `totalVariants`, an `int`, ends at -2147483648, not at the
number of variant lines, with plain as with compressed output. -/
theorem C9_counterexample_counter_overflow :
    (List.replicate 2147483648 "x".toList).countP isVariantLine = 2147483648 ∧
    filterVCF 8191 false defaultConfig (List.replicate 2147483648 "x".toList) =
      some { output := [], totalVariants := -2147483648, passedVariants := 0 } ∧
    filterVCF 8191 true defaultConfig (List.replicate 2147483648 "x".toList) =
      some { output := [], totalVariants := -2147483648, passedVariants := 0 } := by
  have hx : ∀ l ∈ List.replicate 2147483648 "x".toList, l = "x".toList :=
    fun l m => List.eq_of_mem_replicate m
  have hv : (List.replicate 2147483648 "x".toList).countP isVariantLine = 2147483648 := by
    rw [List.countP_eq_length.mpr, List.length_replicate]
    intro l m
    rw [hx l m]
    decide
  have hp : (List.replicate 2147483648 "x".toList).countP (isPassedVariant defaultConfig) = 0 := by
    rw [List.countP_eq_zero]
    intro l m
    rw [hx l m]
    decide
  have hf : (List.replicate 2147483648 "x".toList).filter (isWritten defaultConfig) = [] := by
    rw [List.filter_eq_nil_iff]
    intro l m
    rw [hx l m]
    decide
  have hret : ∀ l ∈ List.replicate 2147483648 "x".toList, isHeaderLine l = false →
      passesDepthFilter defaultConfig l ≠ none := by
    intro l m _
    rw [hx l m]
    decide
  have h1 : wrapInt ((2147483648 : Nat) : Int) = -2147483648 := by decide
  have h2 : wrapInt ((0 : Nat) : Int) = 0 := by decide
  have key : ∀ gz : Bool,
      filterVCF 8191 gz defaultConfig (List.replicate 2147483648 "x".toList) =
        some { output := [], totalVariants := -2147483648, passedVariants := 0 } := by
    intro gz
    rw [filterVCF_spec 8191 gz defaultConfig _ hret, hv, hp, hf, h1, h2]
    rfl
  exact ⟨hv, key false, key true⟩

/-- C9, amended. For every configuration, every output mode and every input with fewer than 2^31
variant lines on each of whose variant lines `passesDepthFilter` returns, the driver loop
completes and then: `totalVariants` is the number of input lines that are not header lines;
the lines that went through the writer are the header lines and the passing variant lines;
`passedVariants` is the number of variant lines among them; `0 ≤ passedVariants ≤
totalVariants`; the reported failed count is `totalVariants - passedVariants`; the number of
lines that went through the writer is the number of header lines plus `passedVariants`; and
with plain output those lines are exactly the lines of the output file. -/
theorem C9_driver_counters (capacity : Nat) (outputIsGzipped : Bool) (cfg : Config)
    (lines : List Str)
    (hret : ∀ l ∈ lines, isHeaderLine l = false → passesDepthFilter cfg l ≠ none)
    (hsmall : lines.countP isVariantLine < 2147483648) :
    ∃ st, filterVCF capacity outputIsGzipped cfg lines = some st ∧
      st.totalVariants = (lines.countP isVariantLine : Nat) ∧
      st.output = writeLines capacity outputIsGzipped (lines.filter (isWritten cfg)) ∧
      st.passedVariants = ((lines.filter (isWritten cfg)).countP isVariantLine : Nat) ∧
      0 ≤ st.passedVariants ∧ st.passedVariants ≤ st.totalVariants ∧
      filteredVariants st = st.totalVariants - st.passedVariants ∧
      ((lines.filter (isWritten cfg)).length : Int) =
        (lines.countP isHeaderLine : Nat) + st.passedVariants ∧
      (outputIsGzipped = false → st.output = textOf (lines.filter (isWritten cfg))) := by
  have hle := countP_isPassedVariant_le cfg lines
  have hT : wrapInt (lines.countP isVariantLine : Nat) = (lines.countP isVariantLine : Nat) :=
    wrapInt_of_range _ (by omega) (by omega)
  have hP : wrapInt (lines.countP (isPassedVariant cfg) : Nat) =
      (lines.countP (isPassedVariant cfg) : Nat) :=
    wrapInt_of_range _ (by omega) (by omega)
  refine ⟨_, filterVCF_spec capacity outputIsGzipped cfg lines hret, ?_, rfl, ?_, ?_, ?_, ?_,
    ?_, ?_⟩
  · exact hT
  · simp only [hP, countP_isVariantLine_filter]
  · simp only [hP]; omega
  · simp only [hP, hT]; omega
  · simp only [filteredVariants, hP, hT]
    exact wrapInt_of_range _ (by omega) (by omega)
  · simp only [hP]
    rw [← List.countP_eq_length_filter, countP_isWritten]
    push_cast
    rfl
  · intro hgz
    simp only [hgz, writeLines_plain]

/-- C9, amended, at a concrete input with plain output under the bounds 10 and 20: two header
lines, a record that passes, a record that fails, and an empty line. -/
theorem C9_driver_counters_witness :
    ∃ st, filterVCF 8191 false ⟨10, 20⟩
        ["##fileformat=VCFv4.2".toList, "#CHROM\tPOS".toList, recordBoundaryDepths,
          recordDepthThirty, []] = some st ∧
      st.totalVariants = 2 ∧ st.passedVariants = 1 ∧ filteredVariants st = 1 ∧
      st.output = textOf ["##fileformat=VCFv4.2".toList, "#CHROM\tPOS".toList,
        recordBoundaryDepths, []] := by
  obtain ⟨st, h, _⟩ := C9_driver_counters 8191 false ⟨10, 20⟩
    ["##fileformat=VCFv4.2".toList, "#CHROM\tPOS".toList, recordBoundaryDepths,
      recordDepthThirty, []] (by decide) (by decide)
  have hs := h
  rw [show filterVCF 8191 false ⟨10, 20⟩
      ["##fileformat=VCFv4.2".toList, "#CHROM\tPOS".toList, recordBoundaryDepths,
        recordDepthThirty, []] =
      some { output := textOf ["##fileformat=VCFv4.2".toList, "#CHROM\tPOS".toList,
                        recordBoundaryDepths, []],
             totalVariants := 2, passedVariants := 1 } from by decide] at hs
  cases hs
  exact ⟨_, h, rfl, rfl, by decide, rfl⟩

/-- C10 as stated fails: the string `a<TAB>b<TAB>` has two delimiters and `split` returns the
two elements `a` and `b`, not three, the empty segment after the last delimiter being dropped;
and the empty string, which contains no delimiter, gives the empty sequence, not one element. -/
theorem C10_counterexample_final_empty_segment :
    "a\tb\t".toList.count '\t' = 2 ∧
    split "a\tb\t".toList '\t' = ["a".toList, "b".toList] ∧
    splitKeepEmpty '\t' "a\tb\t".toList = ["a".toList, "b".toList, []] ∧
    '\t' ∉ ([] : Str) ∧ split [] '\t' = [] := by
  decide

/-- C10, amended. For every string `s` and delimiter `d`, `split(s, d)` returns the ordered
segments of `s` between consecutive occurrences of `d`, empty segments kept, except that the
segment after the last delimiter is dropped when it is empty. In detail: the result is that of
the split that keeps every segment, without its last element when `s` is empty or ends with
`d`; no element contains `d`; the elements joined by `d` give back `s`, less a final `d`; a
string with `k` delimiters gives `k` elements when it is empty or ends with `d`, and `k + 1`
otherwise; and for every non-empty `s` that does not contain `d` the result is `[s]`. -/
theorem C10_split_drops_final_empty_segment (s : Str) (d : Char) :
    split s d =
      (if s = [] ∨ s.getLast? = some d then (splitKeepEmpty d s).dropLast
       else splitKeepEmpty d s) ∧
    (∀ seg ∈ split s d, d ∉ seg) ∧
    [d].intercalate (split s d) = (if s.getLast? = some d then s.dropLast else s) ∧
    (split s d).length =
      (if s = [] ∨ s.getLast? = some d then s.count d else s.count d + 1) ∧
    (d ∉ s → s ≠ [] → split s d = [s]) := by
  refine ⟨split_eq s d, split_no_delimiter s d, split_intercalate s d, split_length s d, ?_⟩
  intro hd hs
  rw [split_of_not_mem s d hd, if_neg hs]

/-- C10, amended, at the strings `a:b::c` and `0/1`. -/
theorem C10_split_drops_final_empty_segment_witness :
    split "a:b::c".toList ':' = ["a".toList, "b".toList, [], "c".toList] ∧
    split "0/1".toList ':' = ["0/1".toList] :=
  ⟨(C10_split_drops_final_empty_segment "a:b::c".toList ':').1.trans (by decide),
   (C10_split_drops_final_empty_segment "0/1".toList ':').2.2.2.2 (by decide) (by decide)⟩

/-- C11. For every FORMAT string and sample string, `extractDepth` works from the first position
`p` whose colon-delimited FORMAT token is exactly `DP` (such a position exists as soon as some
token is `DP`). It returns `-1` when no token is `DP`, and when the sample has fewer than
`p + 1` colon-delimited tokens. Otherwise its result is a function of the sample's token at
position `p` alone: two calls whose tokens at their DP positions are equal return the same
value. -/
theorem C11_extractDepth_lookup (format sampleData : Str) :
    ("DP".toList ∉ split format ':' → extractDepth format sampleData = some (-1)) ∧
    ("DP".toList ∈ split format ':' → ∃ p, IsFirstDP (split format ':') p) ∧
    (∀ p, IsFirstDP (split format ':') p →
      ((split sampleData ':').length < p + 1 → extractDepth format sampleData = some (-1)) ∧
      (∀ tok, (split sampleData ':')[p]? = some tok →
        extractDepth format sampleData = some ((stoi tok).getD (-1)) ∧
        ∀ format' sampleData' p', IsFirstDP (split format' ':') p' →
          (split sampleData' ':')[p']? = some tok →
          extractDepth format' sampleData' = extractDepth format sampleData)) := by
  refine ⟨extractDepth_of_no_DP format sampleData, exists_first_DP _, ?_⟩
  intro p hp
  constructor
  · intro hlen
    rw [extractDepth_of_first format sampleData p hp, List.getElem?_eq_none (by omega)]
  · intro tok htok
    have h1 : extractDepth format sampleData = some ((stoi tok).getD (-1)) := by
      rw [extractDepth_of_first format sampleData p hp, htok]
    refine ⟨h1, ?_⟩
    intro format' sampleData' p' hp' htok'
    rw [h1, extractDepth_of_first format' sampleData' p' hp', htok']

/-- C11 at FORMAT `GT:dp:DP:DP` and sample `0/1:7:42:99`: the lower-case `dp` is not matched, the
first `DP` is at position 2, and the result is 42; with the sample `0/1:7` the result is `-1`. -/
theorem C11_extractDepth_lookup_witness :
    extractDepth "GT:dp:DP:DP".toList "0/1:7:42:99".toList = some 42 ∧
    extractDepth "GT:dp:DP:DP".toList "0/1:7".toList = some (-1) := by
  have hp : IsFirstDP (split "GT:dp:DP:DP".toList ':') 2 := by
    unfold IsFirstDP
    decide
  exact ⟨(((C11_extractDepth_lookup "GT:dp:DP:DP".toList "0/1:7:42:99".toList).2.2 2 hp).2
      "42".toList (by decide)).1.trans (by decide),
    ((C11_extractDepth_lookup "GT:dp:DP:DP".toList "0/1:7".toList).2.2 2 hp).1 (by decide)⟩

/-- C12 as stated fails: with FORMAT `GT:DP` and sample `0/1:15abc` the token at the DP position
is `15abc`, which is not a base-10 integer, and `extractDepth` returns 15, not `-1`. -/
theorem C12_counterexample_trailing_characters :
    (split "GT:DP".toList ':')[1]? = some "DP".toList ∧
    (split "GT:DP".toList ':')[0]? ≠ some "DP".toList ∧
    (split "0/1:15abc".toList ':')[1]? = some "15abc".toList ∧
    isDecimalInteger "15abc".toList = false ∧
    extractDepth "GT:DP".toList "0/1:15abc".toList = some 15 := by
  decide

/-- C12, amended. For every FORMAT string with `DP` first at position `p` and every sample string
with a token `t` at position `p`: when `t` is a base-10 integer, `extractDepth` returns its
value if that fits an `int` and `-1` if not; more generally, when `t` is white space, then a
base-10 integer, then a rest that does not start with a digit, `extractDepth` returns what it
returns for the integer alone, the rest being ignored; and `extractDepth` returns `-1` when `t`
is empty and when, after white space and one optional sign, `t` has no digit. -/
theorem C12_extractDepth_parses_leading_number (format sampleData : Str) (p : Nat) (t : Str)
    (hp : IsFirstDP (split format ':') p) (ht : (split sampleData ':')[p]? = some t) :
    (isDecimalInteger t = true →
      extractDepth format sampleData = some (depthOfNumber (decimalValue t))) ∧
    (∀ ws body rest, t = ws ++ (body ++ rest) → ws.all isspace = true →
      isDecimalInteger body = true → (∀ c, rest.head? = some c → isdigit c = false) →
      extractDepth format sampleData = some (depthOfNumber (decimalValue body))) ∧
    (t = [] → extractDepth format sampleData = some (-1)) ∧
    (∀ ws sgn rest, t = ws ++ (sgn ++ rest) → ws.all isspace = true →
      (sgn = [] ∨ sgn = ['-'] ∨ sgn = ['+']) →
      (∀ c, rest.head? = some c →
        isdigit c = false ∧ (sgn = [] → isspace c = false ∧ c ≠ '-' ∧ c ≠ '+')) →
      extractDepth format sampleData = some (-1)) := by
  have hres : extractDepth format sampleData = some ((stoi t).getD (-1)) := by
    rw [extractDepth_of_first format sampleData p hp, ht]
  have hgen : ∀ ws body rest, t = ws ++ (body ++ rest) → ws.all isspace = true →
      isDecimalInteger body = true → (∀ c, rest.head? = some c → isdigit c = false) →
      extractDepth format sampleData = some (depthOfNumber (decimalValue body)) := by
    intro ws body rest e hws hbody hrest
    obtain ⟨sgn, ds, rfl, hsgn, hne, hds, hval⟩ := isDecimalInteger_parts body hbody
    rw [hres, e, List.append_assoc sgn ds rest, stoi_number ws sgn ds rest hws hsgn hne hds hrest,
      getD_stoi_number, hval]
  refine ⟨?_, hgen, ?_, ?_⟩
  · intro hdec
    exact hgen [] t [] (by simp) rfl hdec (by simp)
  · intro e
    rw [hres, e]
    rfl
  · intro ws sgn rest e hws hsgn hrest
    rw [hres, e, stoi_no_number ws sgn rest hws hsgn hrest]
    rfl

/-- C12, amended, at FORMAT `GT:DP`: the sample `0/1:42` gives 42, the sample `0/1: +42;x`
gives 42, the sample `0/1:99999999999` gives `-1`, and the sample `0/1:.` gives `-1`. -/
theorem C12_extractDepth_parses_leading_number_witness :
    extractDepth "GT:DP".toList "0/1:42".toList = some 42 ∧
    extractDepth "GT:DP".toList "0/1: +42;x".toList = some 42 ∧
    extractDepth "GT:DP".toList "0/1:99999999999".toList = some (-1) ∧
    extractDepth "GT:DP".toList "0/1:.".toList = some (-1) := by
  have hp : IsFirstDP (split "GT:DP".toList ':') 1 := by
    unfold IsFirstDP
    decide
  refine ⟨?_, ?_, ?_, ?_⟩
  · exact ((C12_extractDepth_parses_leading_number "GT:DP".toList "0/1:42".toList 1
      "42".toList hp (by decide)).1 (by decide)).trans (by decide)
  · exact ((C12_extractDepth_parses_leading_number "GT:DP".toList "0/1: +42;x".toList 1
      " +42;x".toList hp (by decide)).2.1 " ".toList "+42".toList ";x".toList (by decide)
      (by decide) (by decide) (by intro c hc; cases hc; decide)).trans (by decide)
  · exact ((C12_extractDepth_parses_leading_number "GT:DP".toList "0/1:99999999999".toList 1
      "99999999999".toList hp (by decide)).1 (by decide)).trans (by decide)
  · exact (C12_extractDepth_parses_leading_number "GT:DP".toList "0/1:.".toList 1
      ".".toList hp (by decide)).2.2.2 [] [] ".".toList (by decide) (by decide) (Or.inl rfl)
      (by intro c hc; cases hc; decide)

/-- C13, the code at the failing input. The line ends with two tabs after the FORMAT column;
`split` gives it 10 fields, the last one the empty sample column, and under every configuration
the read `split(sampleData, ':')[0]` is outside the (empty) vector: `passesDepthFilter` does
not return a boolean. -/
theorem C13_empty_sample_column_index_out_of_bounds (cfg : Config) :
    (split recordTwoTrailingTabs '\t').length = 10 ∧
    samplesOf recordTwoTrailingTabs = [[]] ∧
    (split [] ':')[0]? = none ∧
    passesDepthFilter cfg recordTwoTrailingTabs = none :=
  ⟨by decide, by decide, by decide, rfl⟩

/-- C14, the code at the failing input. Under the bounds 10 and 20 the 10-field record with
FORMAT `GT:DP` and sample `0/1:15` passes. Adding before that sample a column that is the empty
string, whose genotype is therefore the empty string, gives a record on which
`passesDepthFilter` reads `split(sampleData, ':')[0]` outside a vector and does not return. -/
theorem C14_added_empty_column_changes_result :
    isMissingGenotype (genotypeOf []) = true ∧
    passesDepthFilter ⟨10, 20⟩
      ("chr1\t100\t.\tA\tG\t50\tPASS\t.\tGT:DP".toList ++ '\t' :: "0/1:15".toList) = some true ∧
    passesDepthFilter ⟨10, 20⟩
      ("chr1\t100\t.\tA\tG\t50\tPASS\t.\tGT:DP".toList ++ '\t' :: ([] ++ '\t' :: "0/1:15".toList))
      = none := by
  decide

/-- C15. For every file name, `isGzipped` returns true exactly when the name ends with the three
characters `.gz`; a name shorter than three characters is never taken as compressed. The
result is a function of the name alone. -/
theorem C15_isGzipped_iff_suffix (filename : Str) :
    (isGzipped filename = true ↔ ∃ stem, filename = stem ++ ".gz".toList) ∧
    (filename.length < 3 → isGzipped filename = false) := by
  constructor
  · constructor
    · intro h
      simp only [isGzipped, Bool.and_eq_true, decide_eq_true_eq, beq_iff_eq] at h
      refine ⟨filename.take (filename.length - 3), ?_⟩
      rw [← h.2]
      exact (List.take_append_drop _ _).symm
    · rintro ⟨stem, rfl⟩
      simp only [isGzipped, Bool.and_eq_true, decide_eq_true_eq, beq_iff_eq]
      have hl : (stem ++ ".gz".toList).length = stem.length + 3 := by
        rw [List.length_append]; rfl
      refine ⟨by omega, ?_⟩
      rw [hl, Nat.add_sub_cancel]
      exact List.drop_left' rfl
  · intro h
    simp only [isGzipped, Bool.and_eq_false_iff, decide_eq_false_iff_not]
    left; omega

/-- C16, the code at the failing input. A line of 65535 characters `A` has no newline, and
written by the plain branch it is read back by the plain branch. Written through the compressed
branch, where one `gzprintf` call writes at most 8191 bytes (zlib's default), it is not written
at all, and reading back gives no line. Were that capacity 65536, it would be written, and
`readLine`, whose buffer takes 65535 bytes, would give it back followed by an empty line that
was never written. -/
theorem C16_compressed_round_trip_loses_long_line :
    '\n' ∉ List.replicate 65535 'A' ∧
    readAllLines false (writeLines 8191 false [List.replicate 65535 'A']) =
      some [List.replicate 65535 'A'] ∧
    readAllLines true (writeLines 8191 true [List.replicate 65535 'A']) = some [] ∧
    readAllLines true (writeLines 65536 true [List.replicate 65535 'A']) =
      some [List.replicate 65535 'A', []] := by
  have hnl : '\n' ∉ List.replicate 65535 'A' := by
    intro h
    exact absurd (List.eq_of_mem_replicate h) (by decide)
  have hnul : '\x00' ∉ List.replicate 65535 'A' := by
    intro h
    exact absurd (List.eq_of_mem_replicate h) (by decide)
  have hcs := cString_of_no_nul _ hnul
  have hbytes : byteLength (List.replicate 65535 'A') = 65535 :=
    byteLength_replicate_ascii 65535 'A' (by decide)
  have hblen : byteLength (List.replicate 65535 'A' ++ ['\n']) = 65536 := by
    rw [byteLength_append, hbytes]
    decide
  have hlen : (List.replicate 65535 'A' ++ ['\n']).length = 65536 := by
    rw [List.length_append, List.length_replicate]; rfl
  refine ⟨hnl, ?_, ?_, ?_⟩
  · rw [writeLines_plain]
    apply readAllLines_plain_textOf
    intro l hl
    simp only [List.mem_singleton] at hl
    rw [hl]
    exact hnl
  · have hw : writeLines 8191 true [List.replicate 65535 'A'] = [] := by
      simp only [writeLines, writeLine, if_true, hcs, hblen]
      rfl
    rw [hw]
    rfl
  · have hw : writeLines 65536 true [List.replicate 65535 'A'] =
        List.replicate 65535 'A' ++ ['\n'] := by
      simp only [writeLines, writeLine, if_true, hcs, hblen]
      rw [if_pos (by decide), List.append_nil]
    have hne : List.replicate 65535 'A' ≠ [] := by
      intro e
      have := congrArg List.length e
      rw [List.length_replicate] at this
      exact absurd this (by decide)
    have hfirst : readLine true (List.replicate 65535 'A' ++ ['\n']) =
        ReadResult.text (List.replicate 65535 'A') ['\n'] :=
      readLine_gz_full _ _ hnl hnul hne hbytes
    have hrest : readLines true 65536 ['\n'] = some [[]] := by
      rw [readLines_fuel true 65536 2 ['\n'] (by decide) (by decide)]
      decide
    rw [hw, readAllLines, hlen]
    exact readLines_cons true 65536 _ _ _ _ hfirst hrest

/-- C17 as stated fails: with `minDepth = -10` and `maxDepth = 100`, the 10-field record with
FORMAT `GT:DP` and the genotyped sample `0/1:-5` has the negative depth `-5`, and
`passesDepthFilter` returns true. -/
theorem C17_counterexample_negative_lower_bound :
    10 ≤ (split recordNegativeDepth '\t').length ∧
    (∃ s ∈ samplesOf recordNegativeDepth, isMissingGenotype (genotypeOf s) = false ∧
      extractDepth (formatOf recordNegativeDepth) s = some (-5)) ∧
    passesDepthFilter ⟨-10, 100⟩ recordNegativeDepth = some true := by
  decide

/-- C17, amended. For every record with at least 10 fields and no empty sample column that has a
genotyped sample whose depth `d` is negative, `passesDepthFilter` returns false under every
configuration with `minDepth ≥ 0`; and when `d` is `-1`, the value that also stands for an
absent depth, it returns false under every configuration. -/
theorem C17_negative_depth_rejected (cfg : Config) (line s : Str) (d : Int)
    (hne : ∀ x ∈ samplesOf line, x ≠ [])
    (hs : s ∈ samplesOf line) (hgt : isMissingGenotype (genotypeOf s) = false)
    (hd : extractDepth (formatOf line) s = some d) (hneg : d < 0)
    (hcfg : 0 ≤ cfg.minDepth ∨ d = -1) :
    passesDepthFilter cfg line = some false := by
  rcases (passesDepthFilter_characterised cfg line hne).1 with h | h
  · exfalso
    have hok := ((passesDepthFilter_characterised cfg line hne).2.mp h).2 s hs
    rcases hok with hm | ⟨d', hd', h1, h2, _⟩
    · rw [hgt] at hm; exact absurd hm (by decide)
    · rw [hd] at hd'
      have e : d = d' := Option.some.inj hd'
      subst e
      rcases hcfg with h0 | h0
      · omega
      · exact h1 h0
  · exact h

/-- C17, amended, at the record with sample `0/1:-5` under the bounds 0 and 100. -/
theorem C17_negative_depth_rejected_witness :
    passesDepthFilter ⟨0, 100⟩ recordNegativeDepth = some false :=
  C17_negative_depth_rejected ⟨0, 100⟩ recordNegativeDepth "0/1:-5".toList (-5)
    (by decide) (by decide) (by decide) (by decide) (by decide) (Or.inl (by decide))

/-- C18, the code at the failing input. The narrower range is 10 to 20, the wider 0 to 20. The
input is a record with the samples `0/1:5`, an empty column and `./.`, then a header line.
Under the narrower range the record is rejected at its first sample and the header line is
written, with plain as with compressed output. Under the wider range the first sample passes,
the empty column is reached, and `passesDepthFilter` reads outside a vector: the loop does not
complete and, with plain output, the file holds nothing when it stops, so the line written
under the narrower range is not among those written under the wider one. -/
theorem C18_wider_range_reaches_empty_column :
    filterVCF 8191 false ⟨10, 20⟩ [recordLowDepthThenEmpty, "#CHROM\tPOS".toList] =
      some { output := "#CHROM\tPOS\n".toList, totalVariants := 1, passedVariants := 0 } ∧
    filterVCF 8191 true ⟨10, 20⟩ [recordLowDepthThenEmpty, "#CHROM\tPOS".toList] =
      some { output := "#CHROM\tPOS\n".toList, totalVariants := 1, passedVariants := 0 } ∧
    filterVCF 8191 false ⟨0, 20⟩ [recordLowDepthThenEmpty, "#CHROM\tPOS".toList] = none ∧
    filterVCF 8191 true ⟨0, 20⟩ [recordLowDepthThenEmpty, "#CHROM\tPOS".toList] = none ∧
    plainOutputAtStop ⟨10, 20⟩ [recordLowDepthThenEmpty, "#CHROM\tPOS".toList] =
      "#CHROM\tPOS\n".toList ∧
    plainOutputAtStop ⟨0, 20⟩ [recordLowDepthThenEmpty, "#CHROM\tPOS".toList] = [] := by
  decide

/-- C19, the code at the failing input, with compressed output under the bounds 10 and 20. The
record passes, so the first run counts it as passed and writes it; `gzprintf` with `%s` stops
at the NUL in its eighth column, and the output file holds only the eight columns before it.
`readLine` reads that shorter line back, and the second run, on it, counts one variant, passes
none and writes nothing: it neither writes the same lines nor ends with `passedVariants =
totalVariants`. -/
theorem C19_second_run_rejects_line_cut_at_nul :
    filterVCF 8191 true ⟨10, 20⟩ [recordNulInInfo] =
      some { output := "chr1\t100\t.\tA\tG\t50\tPASS\t.\n".toList,
             totalVariants := 1, passedVariants := 1 } ∧
    readAllLines true "chr1\t100\t.\tA\tG\t50\tPASS\t.\n".toList =
      some ["chr1\t100\t.\tA\tG\t50\tPASS\t.".toList] ∧
    filterVCF 8191 true ⟨10, 20⟩ ["chr1\t100\t.\tA\tG\t50\tPASS\t.".toList] =
      some { output := [], totalVariants := 1, passedVariants := 0 } := by
  decide

/-- C20. When no output path is given, the output file name `"filtered_" + inputFile` is taken as
compressed exactly when the input file name is: for every input file name `x` (empty or not),
`isGzipped("filtered_" + x) = isGzipped(x)`. -/
theorem C20_derived_output_same_compression (x : Str) :
    resolveOutputFile x [] = "filtered_".toList ++ x ∧
    isGzipped (resolveOutputFile x []) = isGzipped x := by
  refine ⟨rfl, ?_⟩
  have hres : resolveOutputFile x [] = "filtered_".toList ++ x := rfl
  rw [hres]
  by_cases hlen : 3 ≤ x.length
  · have hl : ("filtered_".toList ++ x).length = 9 + x.length := by
      rw [List.length_append]; rfl
    have hdrop : ("filtered_".toList ++ x).drop (("filtered_".toList ++ x).length - 3) =
        x.drop (x.length - 3) := by
      rw [hl]
      have e : 9 + x.length - 3 = "filtered_".toList.length + (x.length - 3) := by
        have : "filtered_".toList.length = 9 := rfl
        omega
      rw [e, List.drop_append]
    have h1 : decide (("filtered_".toList ++ x).length ≥ 3) = true := by
      rw [hl]; simp; omega
    have h2 : decide (x.length ≥ 3) = true := by simpa using hlen
    simp only [isGzipped, hdrop, h1, h2]
  · have hx : isGzipped x = false := by
      simp only [isGzipped, Bool.and_eq_false_iff, decide_eq_false_iff_not]
      left; omega
    rw [hx]
    match x, hlen with
    | [], _ => decide
    | [a], _ => simp [isGzipped]
    | [a, b], _ => simp [isGzipped]
    | a :: b :: c :: r, h => exact absurd (by simp) h

end VCFDepthFilter
